import Mathlib

/-!
Verification development for the dashboard data pipeline in `src/app.py`.

The pipeline reshapes a wide per-municipality table into a long/tidy table
(`preparar_df_long`), normalizes values per indicator type (`_minmax`,
`_zscore`), and answers aggregation queries (`rank_media`, `media_ano`,
`tendencia`).  Machine floats are modelled by exact rationals; pandas
missing values (NaN) by `Option`; pandas cells by `Cell`.
-/

/-- A cell of the uploaded wide table.  Numeric content (including numeric
strings, which `pd.to_numeric` would coerce) is modelled as `num`; content
that is not numerically coercible as `str`; NaN / absent as `missing`. -/
inductive Cell where
  | num (q : ℚ)
  | str (s : String)
  | missing
deriving DecidableEq

/-- Numeric coercion of one cell, `pd.to_numeric(..., errors="coerce")`:
non-coercible content becomes a missing value, never zero and never an
error. -/
def toNumeric : Cell → Option ℚ
  | Cell.num q => some q
  | Cell.str _ => none
  | Cell.missing => none

/-- Re-embedding of an optional numeric value as a cell (used when pivoting
a long table back to wide form). -/
def cellOfOpt : Option ℚ → Cell
  | some q => Cell.num q
  | none => Cell.missing

/-- A data frame: named columns and rows of cells (row-major). -/
structure DF where
  cols : List String
  rows : List (List Cell)
deriving DecidableEq

/-- One row of the long table produced by `preparar_df_long`:
(municipality, year, type, numerically coerced value). -/
structure LongRow where
  municipio : Cell
  ano : Int
  tipo : String
  valor : Option ℚ
deriving DecidableEq

/-- Splitting a column name at the first underscore, as
`str.split("_", n=1)` does.  Returns `none` when the name has no
underscore (pandas then fails the two-column assignment in
`preparar_df_long`). -/
def splitFirst (c : String) : Option (String × String) :=
  let l := c.toList
  if '_' ∈ l then
    some (String.mk (l.takeWhile (fun ch => ch ≠ '_')),
          String.mk ((l.dropWhile (fun ch => ch ≠ '_')).tail))
  else none

/-- Accumulating decimal-digit parser (structural so that concrete inputs
evaluate in the kernel). -/
def digitsToNatAux : Nat → List Char → Option Nat
  | acc, [] => some acc
  | acc, c :: cs =>
    if c.isDigit then digitsToNatAux (acc * 10 + (c.toNat - '0'.toNat)) cs
    else none

/-- Parse a nonempty all-digit string of characters as a natural number. -/
def digitsToNat (cs : List Char) : Option Nat :=
  if cs.isEmpty then none else digitsToNatAux 0 cs

/-- Semantics of Python `int(...)` on the year token: an optional minus
sign followed by decimal digits; anything else fails (`astype(int)`
raises). -/
def strToInt (p : String) : Option Int :=
  match p.toList with
  | '-' :: cs => (digitsToNat cs).map (fun n => -(n : Int))
  | cs => (digitsToNat cs).map (fun n => (n : Int))

/-- Parse a wide column name `"<year>_<type>"` into its year and type,
as `df_long[["ano", "tipo"]] = ...str.split("_", n=1)` followed by
`astype(int)` does. -/
def parseAnoTipo (c : String) : Option (Int × String) :=
  match splitFirst c with
  | none => none
  | some (p, t) =>
    match strToInt p with
    | none => none
    | some a => some (a, t)

/-- Melting, `df.melt(id_vars="Município", ...)`: pairs every
non-municipality column name with every row, column-major as pandas does.
Cells are addressed by column name (column names are assumed distinct, as
in the source data). -/
def meltPairs (df : DF) : List (String × List Cell) :=
  (df.cols.filter (fun c => c ≠ "Município")).flatMap
    (fun c => df.rows.map (fun r => (c, r)))

/-- Total variant of `parseAnoTipo` (dummy key when parsing fails). -/
def parseAnoTipoT (c : String) : Int × String :=
  (parseAnoTipo c).getD (0, "")

/-- Build one long-table row from one melted (column name, row) pair:
split the name into year and type, coerce the cell to numeric.  Errors
model the exceptions pandas raises for malformed column names. -/
def toLongRow (df : DF) (p : String × List Cell) : Except String LongRow :=
  match splitFirst p.1 with
  | none => Except.error "Columns must be same length as key"
  | some (s, t) =>
    match strToInt s with
    | none => Except.error ("invalid literal for int with base 10: " ++ s)
    | some a =>
      Except.ok
        { municipio := p.2.getD (df.cols.indexOf "Município") Cell.missing
          ano := a
          tipo := t
          valor := toNumeric (p.2.getD (df.cols.indexOf p.1) Cell.missing) }

/-- Total variant of `toLongRow`, equal to it whenever the column name
parses (used to state the melt structure of a successful reshape). -/
def toLongRowT (df : DF) (p : String × List Cell) : LongRow :=
  let k := (parseAnoTipoT p.1)
  { municipio := p.2.getD (df.cols.indexOf "Município") Cell.missing
    ano := k.1
    tipo := k.2
    valor := toNumeric (p.2.getD (df.cols.indexOf p.1) Cell.missing) }

/-- Apply a fallible function to every element, propagating the first
error (the first exception pandas raises aborts the reshape). -/
def exceptMapList {α β : Type} (f : α → Except String β) :
    List α → Except String (List β)
  | [] => Except.ok []
  | x :: xs =>
    match f x, exceptMapList f xs with
    | Except.error e, _ => Except.error e
    | Except.ok _, Except.error e => Except.error e
    | Except.ok y, Except.ok ys => Except.ok (y :: ys)

/-- The reshaper `preparar_df_long` from `src/app.py`: validate the municipality column,
melt, split year and type from the column name, coerce values.  The two
normalized columns are modelled separately by `_minmax` and `_zscore`,
which operate on each type group's value series. -/
def preparar_df_long (df : DF) : Except String (List LongRow) :=
  if "Município" ∈ df.cols then exceptMapList (toLongRow df) (meltPairs df)
  else Except.error "Coluna 'Município' não encontrada em df_final.parquet."

/-- Non-missing values of a series, in order (pandas aggregations skip NaN). -/
def optVals (s : List (Option ℚ)) : List ℚ :=
  s.reduceOption

/-- Minimum of a nonempty list of rationals. -/
def omin : List ℚ → Option ℚ
  | [] => none
  | x :: xs =>
    some (match omin xs with
          | none => x
          | some y => min x y)

/-- Maximum of a nonempty list of rationals. -/
def omax : List ℚ → Option ℚ
  | [] => none
  | x :: xs =>
    some (match omax xs with
          | none => x
          | some y => max x y)

/-- Series minimum `s.min()` with pandas skipna semantics: `none` iff no
non-missing value. -/
def smin (s : List (Option ℚ)) : Option ℚ := omin (optVals s)

/-- Series maximum `s.max()` with pandas skipna semantics. -/
def smax (s : List (Option ℚ)) : Option ℚ := omax (optVals s)

/-- Series mean `s.mean()` with pandas skipna semantics: `none` iff no
non-missing value. -/
def smean (s : List (Option ℚ)) : Option ℚ :=
  let v := optVals s
  if v.length = 0 then none else some (v.sum / (v.length : ℚ))

/-- Sample variance (`pandas` `s.std()` squared, ddof = 1): `none` when
fewer than two non-missing values, matching `std` being NaN there. -/
def svar (s : List (Option ℚ)) : Option ℚ :=
  let v := optVals s
  if v.length < 2 then none
  else
    let m := v.sum / (v.length : ℚ)
    some ((v.map (fun x => (x - m) * (x - m))).sum / ((v.length : ℚ) - 1))

/-- The degeneracy test of `_minmax` in the source:
`pd.isna(mn) or pd.isna(mx) or mx == mn`. -/
def mmDegenB (s : List (Option ℚ)) : Bool :=
  match smin s, smax s with
  | some mn, some mx => mn == mx
  | _, _ => true

/-- The degeneracy test of `_zscore` in the source:
`pd.isna(m) or pd.isna(std) or std == 0`.  Since the standard deviation is
`Real.sqrt` of the sample variance and `Real.sqrt x = 0 ↔ x = 0` for
`x ≥ 0`, the test `std == 0` is expressed as `svar s == 0`. -/
def zDegenB (s : List (Option ℚ)) : Bool :=
  match smean s, svar s with
  | some _, some vr => vr == 0
  | _, _ => true

/-- Min-max normalization `_minmax` from `preparar_df_long`, on one type
group's value series.  Degenerate groups become constant `0.0`
(`pd.Series(0.0, index=s.index)` overwrites missing entries too); otherwise
`(s - mn) / (mx - mn)`, where missing entries stay missing. -/
def _minmax (s : List (Option ℚ)) : List (Option ℚ) :=
  match smin s, smax s with
  | some mn, some mx =>
    if mx = mn then s.map (fun _ => some 0)
    else s.map (Option.map (fun v => (v - mn) / (mx - mn)))
  | _, _ => s.map (fun _ => some 0)

/-- Z-score normalization `_zscore` from `preparar_df_long`, on one type
group's value series, `(s - m) / std` with `std` the sample standard
deviation; degenerate groups (mean or std undefined, or std zero) become
constant `0.0`.  Values are real because `std` is a square root. -/
noncomputable def _zscore (s : List (Option ℚ)) : List (Option ℝ) :=
  match smean s, svar s with
  | some m, some vr =>
    if vr = 0 then s.map (fun _ => some 0)
    else s.map (Option.map (fun (v : ℚ) => ((v : ℝ) - (m : ℝ)) / Real.sqrt (vr : ℝ)))
  | _, _ => s.map (fun _ => some (0 : ℝ))

/-- Mean of the non-missing members of a real-valued series (used to state
the z-score centering property). -/
noncomputable def meanSome (l : List (Option ℝ)) : ℝ :=
  l.reduceOption.sum / (l.reduceOption.length : ℝ)

/-- The value series of one type group of the long table (what
`groupby("tipo")["valor"]` hands to `_minmax` and `_zscore`). -/
def groupVals (L : List LongRow) (t : String) : List (Option ℚ) :=
  (L.filter (fun r => r.tipo = t)).map (fun r => r.valor)

/-- Fuel-driven helper for `firstDedup` (structural recursion so that
concrete instances evaluate in the kernel). -/
def firstDedupAux {α : Type} [DecidableEq α] : Nat → List α → List α
  | 0, _ => []
  | _, [] => []
  | n + 1, x :: xs => x :: firstDedupAux n (xs.filter (fun y => y ≠ x))

/-- Deduplication keeping the first occurrence of each element, in order of
appearance — the order pandas `unique` and our pivot reconstruction use. -/
def firstDedup {α : Type} [DecidableEq α] (l : List α) : List α :=
  firstDedupAux l.length l

/-- Insertion step of the sort: place `x` before the first element it is
`le`-related to (stable for ties). -/
def insertLe {α : Type} (le : α → α → Bool) (x : α) : List α → List α
  | [] => [x]
  | y :: ys => if le x y then x :: y :: ys else y :: insertLe le x ys

/-- Insertion sort by a boolean relation.  Models pandas `sort_values`;
only the order of ties is implementation-defined there, and no modelled
query depends on tie order. -/
def isort {α : Type} (le : α → α → Bool) : List α → List α
  | [] => []
  | x :: xs => insertLe le x (isort le xs)

/-- Comparison used by `media_ano.sort_values()`: ascending by the mean
value, missing means (NaN) last. -/
def maLe (p q : Int × Option ℚ) : Bool :=
  match p.2, q.2 with
  | some x, some y => decide (x ≤ y)
  | some _, none => true
  | none, some _ => false
  | none, none => true

/-- Comparison used by `rank_media.sort_values(ascending=False)`:
descending by the mean value, missing means (NaN) last. -/
def rkLe (p q : Cell × Option ℚ) : Bool :=
  match p.2, q.2 with
  | some x, some y => decide (y ≤ x)
  | some _, none => true
  | none, some _ => false
  | none, none => true

/-- Section-1 per-year means:
`df_tipo.groupby("ano")["valor"].mean().sort_values()`.  Note the result
is sorted by the MEAN VALUE (ascending, NaN last), not by year: `groupby`
sorts by year, but `sort_values` then re-sorts by value. -/
def media_ano (L : List LongRow) (t : String) : List (Int × Option ℚ) :=
  let g := L.filter (fun r => r.tipo = t)
  let anos := isort (fun a b => decide (a ≤ b)) (firstDedup (g.map (fun r => r.ano)))
  isort maLe
    (anos.map (fun a =>
      (a, smean ((g.filter (fun r => r.ano = a)).map (fun r => r.valor)))))

/-- The trend label of section 1. -/
inductive Tendencia where
  | crescimento
  | queda
  | estavel
  | semDados
deriving DecidableEq

/-- Python float comparison `a > b` where either side may be NaN
(comparisons with NaN are false). -/
def optGt (a b : Option ℚ) : Bool :=
  match a, b with
  | some x, some y => decide (y < x)
  | _, _ => false

/-- Python float comparison `a < b` where either side may be NaN. -/
def optLt (a b : Option ℚ) : Bool :=
  match a, b with
  | some x, some y => decide (x < y)
  | _, _ => false

/-- The section-1 trend check from `src/app.py`: with
`valor_ini = media_ano.iloc[0]` and `valor_fim = media_ano.iloc[-1]`
(first and last of the VALUE-sorted per-year means), the label is
"crescimento" when `valor_ini > valor_fim * 1.05`, "queda" when
`valor_ini < valor_fim * 0.95`, else "estavel"; with fewer than two years,
no trend is reported. -/
def tendencia (L : List LongRow) (t : String) : Tendencia :=
  let ma := media_ano L t
  if 2 ≤ ma.length then
    let vi := (ma.head?.map Prod.snd).getD none
    let vf := (ma.getLast?.map Prod.snd).getD none
    if optGt vi (vf.map (fun x => x * (105 / 100))) then Tendencia.crescimento
    else if optLt vi (vf.map (fun x => x * (95 / 100))) then Tendencia.queda
    else Tendencia.estavel
  else Tendencia.semDados

/-- Section-1 ranking:
`df_tipo.groupby("Município")["valor"].mean().sort_values(ascending=False)`.
Municipalities are grouped in order of first appearance (pandas sorts the
group keys; this affects only the order of ties, which no claim fixes),
each with the mean of its non-missing values (`none` when there is none),
sorted descending with missing means last. -/
def rank_media (L : List LongRow) (t : String) : List (Cell × Option ℚ) :=
  let g := L.filter (fun r => r.tipo = t)
  let muns := firstDedup (g.map (fun r => r.municipio))
  isort rkLe
    (muns.map (fun m =>
      (m, smean ((g.filter (fun r => r.municipio = m)).map (fun r => r.valor)))))

/-- The call site of `preparar_df_long` in the script: the reshape runs
inside `try/except`, and on error the app calls `st.stop()` before any
chart or aggregate of section 1 is computed.  Modelled by propagating the
error past the section-1 aggregates. -/
def dashboard_section1 (df : DF) (t : String) :
    Except String (List (Cell × Option ℚ) × Tendencia) :=
  (preparar_df_long df).map (fun L => (rank_media L t, tendencia L t))

/-- Modelled from the spec: the source has no inverse transform, and the
round-trip law of the spec pivots "the long table's `value` column back by
municipality/year-type key".  The pivot indexes by municipality, one
column per (year, type) key (both in order of first appearance), rebuilds
the column name as `"<year>_<type>"`, and fails (as `DataFrame.pivot`
does) when a (municipality, year, type) triple occurs more than once.
`pivotCellW` looks up the unique long row of one (municipality, key) pair
and re-embeds its value as a cell. -/
def pivotCellW (L : List LongRow) (m : Cell) (k : Int × String) : Cell :=
  match L.find? (fun rw =>
      decide (rw.municipio = m ∧ rw.ano = k.1 ∧ rw.tipo = k.2)) with
  | some rw => cellOfOpt rw.valor
  | none => Cell.missing

def pivotValor (L : List LongRow) : Option DF :=
  if (L.map (fun r => (r.municipio, r.ano, r.tipo))).Nodup then
    let keys := firstDedup (L.map (fun r => (r.ano, r.tipo)))
    let muns := firstDedup (L.map (fun r => r.municipio))
    some
      { cols := "Município" :: keys.map (fun k => toString k.1 ++ "_" ++ k.2)
        rows := muns.map (fun m => m :: keys.map (fun k => pivotCellW L m k)) }
  else none

/-- The cell contents of the column named `c` (well-behaved when column
names are distinct). -/
def colOfDF (df : DF) (c : String) : List Cell :=
  df.rows.map (fun r => r.getD (df.cols.indexOf c) Cell.missing)

/-- The named columns of a data frame: each column name with its cell
contents (well-behaved when column names are distinct). -/
def colsOf (df : DF) : List (String × List Cell) :=
  df.cols.map (fun c => (c, colOfDF df c))

/-- Equality of data frames up to column order: the named columns of one
are a permutation of the named columns of the other. -/
def eqUpToColOrder (a b : DF) : Prop :=
  List.Perm (colsOf a) (colsOf b)

/-- A cell holds numeric-or-missing content exactly when numeric coercion
followed by re-embedding is the identity on it. -/
def isNumOrMissing (x : Cell) : Prop :=
  cellOfOpt (toNumeric x) = x

/-- A concrete accepted wide table: two municipality rows, two year-type
columns, one missing cell. -/
def dfXY : DF :=
  { cols := ["Município", "2017_geral", "2018_geral"]
    rows := [[Cell.str "X", Cell.num 1, Cell.num 2],
             [Cell.str "Y", Cell.num 3, Cell.missing]] }

/-- The long table of `dfXY` (column-major, as pandas melt orders rows). -/
def longXY : List LongRow :=
  [⟨Cell.str "X", 2017, "geral", some 1⟩,
   ⟨Cell.str "Y", 2017, "geral", some 3⟩,
   ⟨Cell.str "X", 2018, "geral", some 2⟩,
   ⟨Cell.str "Y", 2018, "geral", none⟩]

/-- A concrete table without the municipality column. -/
def dfSemMun : DF :=
  { cols := ["2017_geral"], rows := [[Cell.num 1]] }

/-- A concrete wide table with a non-coercible cell. -/
def dfStrCell : DF :=
  { cols := ["Município", "2017_geral"]
    rows := [[Cell.str "X", Cell.str "abc"]] }

/-- The long table of `dfStrCell`: the bad cell became missing. -/
def longStrCell : List LongRow :=
  [⟨Cell.str "X", 2017, "geral", none⟩]

/-- A long table whose single type group is [1, 2, missing]. -/
def gL3 : List LongRow :=
  [⟨Cell.str "A", 1, "g", some 1⟩,
   ⟨Cell.str "B", 1, "g", some 2⟩,
   ⟨Cell.str "C", 1, "g", none⟩]

/-- A long table whose single type group is [1, 3]. -/
def gL4 : List LongRow :=
  [⟨Cell.str "A", 1, "g", some 1⟩, ⟨Cell.str "B", 1, "g", some 3⟩]

/-- A long table whose single type group is the degenerate [5, 5, missing]. -/
def gL10 : List LongRow :=
  [⟨Cell.str "A", 1, "g", some 5⟩,
   ⟨Cell.str "B", 1, "g", some 5⟩,
   ⟨Cell.str "C", 1, "g", none⟩]

/-- A long table with one type, year 1 mean 100 and year 2 mean 94. -/
def gTrend : List LongRow :=
  [⟨Cell.str "X", 1, "g", some 100⟩, ⟨Cell.str "X", 2, "g", some 94⟩]

/-- A long table where municipality B has only a missing value for type g. -/
def gRank : List LongRow :=
  [⟨Cell.str "A", 1, "g", some 10⟩, ⟨Cell.str "B", 1, "g", none⟩]

/-- The value (non-municipality) columns of a wide table. -/
def vcsOf (df : DF) : List String :=
  df.cols.filter (fun c => c ≠ "Município")

/-- The municipality column of a wide table. -/
def munColOf (df : DF) : List Cell :=
  df.rows.map (fun r => r.getD (df.cols.indexOf "Município") Cell.missing)

/-- The (year, type) keys of a wide table's value columns. -/
def keysOf (df : DF) : List (Int × String) :=
  (vcsOf df).map parseAnoTipoT

instance (x : Cell) : Decidable (isNumOrMissing x) := by
  unfold isNumOrMissing
  infer_instance

/-- The wide table the pivot reconstructs from `dfStrCell`'s long table:
the non-coercible cell has collapsed to a missing cell. -/
def wStrCell : DF :=
  { cols := ["Município", "2017_geral"]
    rows := [[Cell.str "X", Cell.missing]] }

/-! ### General helper lemmas -/

theorem exceptMapList_ok_forall₂ {α β : Type} (f : α → Except String β) :
    ∀ (xs : List α) (ys : List β), exceptMapList f xs = Except.ok ys →
      List.Forall₂ (fun x y => f x = Except.ok y) xs ys := by
  intro xs
  induction xs with
  | nil =>
    intro ys h
    cases h
    exact List.Forall₂.nil
  | cons x xs ih =>
    intro ys h
    unfold exceptMapList at h
    cases hx : f x with
    | error e => rw [hx] at h; cases h
    | ok y =>
      rw [hx] at h
      cases hxs : exceptMapList f xs with
      | error e => rw [hxs] at h; cases h
      | ok ys' =>
        rw [hxs] at h
        cases h
        exact List.Forall₂.cons hx (ih ys' hxs)

theorem forall₂_eq_map {α β : Type} (g : α → β) :
    ∀ (xs : List α) (ys : List β),
      List.Forall₂ (fun x y => y = g x) xs ys → ys = xs.map g := by
  intro xs
  induction xs with
  | nil => intro ys h; cases h; rfl
  | cons x xs ih =>
    intro ys h
    cases h with
    | cons hxy htail => simp [List.map_cons, hxy, ih _ htail]

theorem forall₂_mem_left {α β : Type} {R : α → β → Prop} :
    ∀ {xs : List α} {ys : List β}, List.Forall₂ R xs ys →
      ∀ {x}, x ∈ xs → ∃ y ∈ ys, R x y := by
  intro xs
  induction xs with
  | nil => intro ys h x hx; cases hx
  | cons a xs ih =>
    intro ys h x hx
    cases h with
    | cons hay htail =>
      rcases List.mem_cons.mp hx with hx | hx
      · subst hx
        exact ⟨_, List.mem_cons_self _ _, hay⟩
      · obtain ⟨y, hy, hr⟩ := ih htail hx
        exact ⟨y, List.mem_cons_of_mem _ hy, hr⟩

/-- Successful parses make `toLongRow` agree with its total variant. -/
theorem toLongRow_ok_iff (df : DF) (p : String × List Cell) (rw : LongRow) :
    toLongRow df p = Except.ok rw ↔
      (∃ k, parseAnoTipo p.1 = some k) ∧ rw = toLongRowT df p := by
  cases hs : splitFirst p.1 with
  | none => simp [toLongRow, parseAnoTipo, hs]
  | some pt =>
    obtain ⟨s, t⟩ := pt
    cases hi : strToInt s with
    | none => simp [toLongRow, parseAnoTipo, hs, hi]
    | some a =>
      simp only [toLongRow, toLongRowT, parseAnoTipoT, parseAnoTipo, hs, hi,
        Option.getD_some, Except.ok.injEq]
      constructor
      · intro h
        exact ⟨⟨(a, t), rfl⟩, h.symm⟩
      · rintro ⟨-, h⟩
        exact h.symm

/-- A successful reshape is exactly the melt mapped through `toLongRowT`. -/
theorem preparar_ok_eq (df : DF) (L : List LongRow)
    (h : preparar_df_long df = Except.ok L) :
    L = (meltPairs df).map (toLongRowT df) := by
  unfold preparar_df_long at h
  by_cases hm : "Município" ∈ df.cols
  · rw [if_pos hm] at h
    exact forall₂_eq_map _ _ _
      ((exceptMapList_ok_forall₂ _ _ _ h).imp
        (fun _ _ hp => ((toLongRow_ok_iff df _ _).mp hp).2))
  · rw [if_neg hm] at h
    cases h

/-- A successful reshape certifies every melted column name parses. -/
theorem preparar_ok_parses (df : DF) (L : List LongRow)
    (h : preparar_df_long df = Except.ok L) :
    ∀ p ∈ meltPairs df, ∃ k, parseAnoTipo p.1 = some k := by
  unfold preparar_df_long at h
  by_cases hm : "Município" ∈ df.cols
  · rw [if_pos hm] at h
    intro p hp
    obtain ⟨rw', -, hok⟩ :=
      forall₂_mem_left (exceptMapList_ok_forall₂ _ _ _ h) hp
    exact ((toLongRow_ok_iff df p rw').mp hok).1
  · rw [if_neg hm] at h
    cases h

theorem length_flatMap_inner {α β γ : Type} (l : List α) (rows : List β)
    (g : α → β → γ) :
    (l.flatMap (fun c => rows.map (g c))).length = l.length * rows.length := by
  induction l with
  | nil => simp
  | cons c l ih => simp [List.flatMap_cons, ih, Nat.succ_mul, Nat.add_comm]

/-! ### Claims C5 and C6 -/

/-- Claim C5: for every wide table accepted by the reshaper with N
non-municipality columns and M municipality rows, the resulting long table
has exactly N times M rows. -/
theorem claim_C5 (df : DF) (L : List LongRow)
    (h : preparar_df_long df = Except.ok L) :
    L.length = (df.cols.filter (fun c => c ≠ "Município")).length * df.rows.length := by
  rw [preparar_ok_eq df L h, List.length_map]
  exact length_flatMap_inner _ _ _

/-- Witness for C5 at `dfXY`: 2 columns, 2 rows, 4 long rows. -/
theorem claim_C5_witness :
    preparar_df_long dfXY = Except.ok longXY ∧
    longXY.length =
      (dfXY.cols.filter (fun c => c ≠ "Município")).length * dfXY.rows.length ∧
    longXY.length = 4 :=
  ⟨rfl, claim_C5 dfXY longXY rfl, rfl⟩

/-- Claim C6: for every input table lacking the municipality column, the
reshaper raises a validation error rather than returning a long table, and
the dashboard halts before any section-1 aggregate (ranking or trend) is
computed. -/
theorem claim_C6 (df : DF) (h : "Município" ∉ df.cols) :
    preparar_df_long df =
      Except.error "Coluna 'Município' não encontrada em df_final.parquet." ∧
    ∀ t, dashboard_section1 df t =
      Except.error "Coluna 'Município' não encontrada em df_final.parquet." := by
  have hp : preparar_df_long df =
      Except.error "Coluna 'Município' não encontrada em df_final.parquet." := by
    unfold preparar_df_long
    rw [if_neg h]
  refine ⟨hp, fun t => ?_⟩
  unfold dashboard_section1
  rw [hp]
  rfl

/-- Witness for C6 at `dfSemMun`. -/
theorem claim_C6_witness :
    preparar_df_long dfSemMun =
      Except.error "Coluna 'Município' não encontrada em df_final.parquet." ∧
    dashboard_section1 dfSemMun "geral" =
      Except.error "Coluna 'Município' não encontrada em df_final.parquet." :=
  ⟨(claim_C6 dfSemMun (by decide)).1, (claim_C6 dfSemMun (by decide)).2 "geral"⟩

/-! ### Claims C9 and C7 -/

theorem toLongRow_ok_parse (df : DF) (p : String × List Cell) (rw : LongRow)
    (h : toLongRow df p = Except.ok rw) :
    ∃ pre, splitFirst p.1 = some (pre, rw.tipo) ∧ strToInt pre = some rw.ano := by
  cases hs : splitFirst p.1 with
  | none => simp [toLongRow, hs] at h
  | some pt =>
    obtain ⟨s, t⟩ := pt
    cases hi : strToInt s with
    | none => simp [toLongRow, hs, hi] at h
    | some a =>
      simp only [toLongRow, hs, hi, Except.ok.injEq] at h
      subst h
      exact ⟨s, rfl, hi⟩

theorem takeWhile_append_all {α : Type} (q : α → Bool) :
    ∀ (xs ys : List α), (∀ x ∈ xs, q x = true) →
      List.takeWhile q (xs ++ ys) = xs ++ List.takeWhile q ys := by
  intro xs ys hall
  induction xs with
  | nil => simp
  | cons x xs ih =>
    have hx : q x = true := hall x (List.mem_cons_self _ _)
    simp only [List.cons_append, List.takeWhile_cons, hx, if_true]
    rw [ih (fun y hy => hall y (List.mem_cons_of_mem _ hy))]

theorem dropWhile_append_all {α : Type} (q : α → Bool) :
    ∀ (xs ys : List α), (∀ x ∈ xs, q x = true) →
      List.dropWhile q (xs ++ ys) = List.dropWhile q ys := by
  intro xs ys hall
  induction xs with
  | nil => simp
  | cons x xs ih =>
    have hx : q x = true := hall x (List.mem_cons_self _ _)
    simp only [List.cons_append, List.dropWhile_cons, hx, if_true]
    exact ih (fun y hy => hall y (List.mem_cons_of_mem _ hy))

theorem string_mk_toList (s : String) : String.mk s.toList = s := rfl

/-- Splitting a canonical name recovers prefix and remainder: the split is
at the FIRST underscore, so the remainder may itself contain underscores. -/
theorem splitFirst_canonical (pre t : String) (h : '_' ∉ pre.toList) :
    splitFirst (pre ++ "_" ++ t) = some (pre, t) := by
  have hdata : (pre ++ "_" ++ t).toList = pre.toList ++ '_' :: t.toList := by
    show (pre ++ "_" ++ t).data = pre.data ++ '_' :: t.data
    rw [String.data_append, String.data_append, List.append_assoc]
    rfl
  have hall : ∀ x ∈ pre.toList, (fun ch => decide (ch ≠ '_')) x = true := by
    intro x hx
    simp only [decide_eq_true_eq]
    intro heq
    exact h (heq ▸ hx)
  unfold splitFirst
  rw [hdata]
  rw [if_pos (by simp)]
  congr 1
  have htake : List.takeWhile (fun ch => decide (ch ≠ '_'))
      (pre.toList ++ '_' :: t.toList) = pre.toList := by
    rw [takeWhile_append_all _ _ _ hall]
    simp [List.takeWhile_cons]
  have hdrop : List.dropWhile (fun ch => decide (ch ≠ '_'))
      (pre.toList ++ '_' :: t.toList) = '_' :: t.toList := by
    rw [dropWhile_append_all _ _ _ hall]
    simp [List.dropWhile_cons]
  rw [htake, hdrop]
  simp [string_mk_toList]

/-- Claim C9: in every long-table row, `ano` is the integer parsed from
the prefix of the original column name up to the first underscore, and
`tipo` is the remainder after that first underscore — even when the
remainder itself contains underscores (the split is `n=1`). -/
theorem claim_C9 (df : DF) (L : List LongRow)
    (h : preparar_df_long df = Except.ok L) :
    (List.Forall₂ (fun (p : String × List Cell) (rw : LongRow) =>
        ∃ pre, splitFirst p.1 = some (pre, rw.tipo) ∧ strToInt pre = some rw.ano)
      (meltPairs df) L) ∧
    ∀ (pre t : String), '_' ∉ pre.toList →
      splitFirst (pre ++ "_" ++ t) = some (pre, t) := by
  refine ⟨?_, fun pre t hpre => splitFirst_canonical pre t hpre⟩
  unfold preparar_df_long at h
  by_cases hm : "Município" ∈ df.cols
  · rw [if_pos hm] at h
    exact (exceptMapList_ok_forall₂ _ _ _ h).imp
      (fun _ _ hp => toLongRow_ok_parse df _ _ hp)
  · rw [if_neg hm] at h
    cases h

/-- Witness for C9 at `dfXY`, plus a split whose remainder contains an
underscore. -/
theorem claim_C9_witness :
    (List.Forall₂ (fun (p : String × List Cell) (rw : LongRow) =>
        ∃ pre, splitFirst p.1 = some (pre, rw.tipo) ∧ strToInt pre = some rw.ano)
      (meltPairs dfXY) longXY) ∧
    splitFirst ("20" ++ "_" ++ "a_b") = some ("20", "a_b") :=
  ⟨(claim_C9 dfXY longXY rfl).1,
   (claim_C9 dfXY longXY rfl).2 "20" "a_b" (by decide)⟩

theorem optVals_skip_none (s₁ s₂ : List (Option ℚ)) :
    optVals (s₁ ++ none :: s₂) = optVals (s₁ ++ s₂) := by
  unfold optVals
  rw [List.reduceOption_append, List.reduceOption_append]
  rfl

/-- Claim C7: non-coercible cell content becomes the missing-value marker
in the long table (not zero, not an error), and every aggregate used
downstream (mean, min, max, variance/std) is invariant under inserting a
missing value — missing values are skipped, not treated as zero. -/
theorem claim_C7 (df : DF) (L : List LongRow)
    (h : preparar_df_long df = Except.ok L) :
    (List.Forall₂ (fun (p : String × List Cell) (rw : LongRow) =>
        rw.valor = toNumeric (p.2.getD (df.cols.indexOf p.1) Cell.missing))
      (meltPairs df) L) ∧
    (∀ s, toNumeric (Cell.str s) = none ∧ toNumeric (Cell.str s) ≠ some 0) ∧
    (∀ (s₁ s₂ : List (Option ℚ)),
      smean (s₁ ++ none :: s₂) = smean (s₁ ++ s₂) ∧
      smin (s₁ ++ none :: s₂) = smin (s₁ ++ s₂) ∧
      smax (s₁ ++ none :: s₂) = smax (s₁ ++ s₂) ∧
      svar (s₁ ++ none :: s₂) = svar (s₁ ++ s₂)) := by
  refine ⟨?_, fun s => ⟨rfl, by simp [toNumeric]⟩, fun s₁ s₂ => ?_⟩
  · unfold preparar_df_long at h
    by_cases hm : "Município" ∈ df.cols
    · rw [if_pos hm] at h
      refine (exceptMapList_ok_forall₂ _ _ _ h).imp (fun p rw' hp => ?_)
      rw [((toLongRow_ok_iff df p rw').mp hp).2]
      rfl
    · rw [if_neg hm] at h
      cases h
  · have hv := optVals_skip_none s₁ s₂
    refine ⟨?_, ?_, ?_, ?_⟩
    · unfold smean; rw [hv]
    · unfold smin; rw [hv]
    · unfold smax; rw [hv]
    · unfold svar; rw [hv]

/-- Witness for C7 at `dfStrCell` and at concrete series: inserting a
missing value changes no aggregate. -/
theorem claim_C7_witness :
    preparar_df_long dfStrCell = Except.ok longStrCell ∧
    (List.Forall₂ (fun (p : String × List Cell) (rw : LongRow) =>
        rw.valor = toNumeric (p.2.getD (dfStrCell.cols.indexOf p.1) Cell.missing))
      (meltPairs dfStrCell) longStrCell) ∧
    toNumeric (Cell.str "abc") = none ∧
    smean ([some 1, some 3] ++ none :: [some 5]) =
      smean ([some 1, some 3] ++ [some 5]) :=
  ⟨rfl, (claim_C7 dfStrCell longStrCell rfl).1,
   ((claim_C7 dfStrCell longStrCell rfl).2.1 "abc").1,
   ((claim_C7 dfStrCell longStrCell rfl).2.2 [some 1, some 3] [some 5]).1⟩

/-! ### Claim C3 -/

theorem omin_mem : ∀ (v : List ℚ) (m : ℚ), omin v = some m → m ∈ v := by
  intro v
  induction v with
  | nil => intro m h; cases h
  | cons x xs ih =>
    intro m h
    unfold omin at h
    cases hxs : omin xs with
    | none =>
      rw [hxs] at h
      cases h
      exact List.mem_cons_self _ _
    | some y =>
      rw [hxs] at h
      cases h
      show min x y ∈ x :: xs
      rcases min_cases x y with ⟨he, -⟩ | ⟨he, -⟩
      · rw [he]; exact List.mem_cons_self _ _
      · rw [he]; exact List.mem_cons_of_mem _ (ih y hxs)

theorem omin_le : ∀ (v : List ℚ) (m : ℚ), omin v = some m → ∀ x ∈ v, m ≤ x := by
  intro v
  induction v with
  | nil => intro m h; cases h
  | cons a xs ih =>
    intro m h x hx
    unfold omin at h
    cases hxs : omin xs with
    | none =>
      rw [hxs] at h
      cases h
      rcases List.mem_cons.mp hx with hx | hx
      · exact hx ▸ le_refl _
      · cases xs with
        | nil => cases hx
        | cons b bs => unfold omin at hxs; cases hxs
    | some y =>
      rw [hxs] at h
      cases h
      show min a y ≤ x
      rcases List.mem_cons.mp hx with hx | hx
      · exact hx ▸ min_le_left _ _
      · exact le_trans (min_le_right _ _) (ih y hxs x hx)

theorem omax_mem : ∀ (v : List ℚ) (m : ℚ), omax v = some m → m ∈ v := by
  intro v
  induction v with
  | nil => intro m h; cases h
  | cons x xs ih =>
    intro m h
    unfold omax at h
    cases hxs : omax xs with
    | none =>
      rw [hxs] at h
      cases h
      exact List.mem_cons_self _ _
    | some y =>
      rw [hxs] at h
      cases h
      show max x y ∈ x :: xs
      rcases max_cases x y with ⟨he, -⟩ | ⟨he, -⟩
      · rw [he]; exact List.mem_cons_self _ _
      · rw [he]; exact List.mem_cons_of_mem _ (ih y hxs)

theorem le_omax : ∀ (v : List ℚ) (m : ℚ), omax v = some m → ∀ x ∈ v, x ≤ m := by
  intro v
  induction v with
  | nil => intro m h; cases h
  | cons a xs ih =>
    intro m h x hx
    unfold omax at h
    cases hxs : omax xs with
    | none =>
      rw [hxs] at h
      cases h
      rcases List.mem_cons.mp hx with hx | hx
      · exact hx ▸ le_refl _
      · cases xs with
        | nil => cases hx
        | cons b bs => unfold omax at hxs; cases hxs
    | some y =>
      rw [hxs] at h
      cases h
      show x ≤ max a y
      rcases List.mem_cons.mp hx with hx | hx
      · exact hx ▸ le_max_left _ _
      · exact le_trans (ih y hxs x hx) (le_max_right _ _)

theorem mem_optVals {s : List (Option ℚ)} {v : ℚ} :
    v ∈ optVals s ↔ some v ∈ s := by
  unfold optVals
  exact List.reduceOption_mem_iff

/-- The degenerate branch of `_minmax` yields the constant zero series. -/
theorem minmax_degen_eq (s : List (Option ℚ)) (h : mmDegenB s = true) :
    _minmax s = s.map (fun _ => some 0) := by
  unfold mmDegenB at h
  unfold _minmax
  cases hmn : smin s with
  | none => simp [hmn]
  | some mn =>
    cases hmx : smax s with
    | none => simp [hmn, hmx]
    | some mx =>
      simp only [hmn, hmx, beq_iff_eq] at h
      simp [hmn, hmx, h]

/-- The non-degenerate branch of `_minmax` applies the affine rescale. -/
theorem minmax_nondegen_eq (s : List (Option ℚ)) (h : mmDegenB s = false) :
    ∃ mn mx, smin s = some mn ∧ smax s = some mx ∧ mx ≠ mn ∧
      _minmax s = s.map (Option.map (fun v => (v - mn) / (mx - mn))) := by
  unfold mmDegenB at h
  cases hmn : smin s with
  | none => rw [hmn] at h; cases h
  | some mn =>
    cases hmx : smax s with
    | none => rw [hmn, hmx] at h; cases h
    | some mx =>
      rw [hmn, hmx] at h
      simp only [beq_eq_false_iff_ne, ne_eq] at h
      have h' : ¬mx = mn := fun he => h he.symm
      refine ⟨mn, mx, rfl, rfl, h', ?_⟩
      unfold _minmax
      simp [hmn, hmx, h']

/-- Claim C3, amended: in a non-degenerate type group every DEFINED
min-max entry lies in [0, 1] (entries of missing values are themselves
missing, see C10); in a degenerate group (min equals max, or all values
missing) every member is exactly 0. -/
theorem claim_C3_amended (L : List LongRow) (t : String) :
    (mmDegenB (groupVals L t) = false →
      ∀ x ∈ _minmax (groupVals L t), ∀ q : ℚ, x = some q → 0 ≤ q ∧ q ≤ 1) ∧
    (mmDegenB (groupVals L t) = true →
      ∀ x ∈ _minmax (groupVals L t), x = some 0) := by
  constructor
  · intro hnd x hx q hq
    obtain ⟨mn, mx, hmn, hmx, hne, heq⟩ := minmax_nondegen_eq _ hnd
    rw [heq] at hx
    obtain ⟨y, hy, hxy⟩ := List.mem_map.mp hx
    subst hq
    cases y with
    | none => cases hxy
    | some v =>
      simp only [Option.map_some', Option.some.injEq] at hxy
      have hv : v ∈ optVals (groupVals L t) := mem_optVals.mpr hy
      have h1 : mn ≤ v := omin_le _ _ hmn v hv
      have h2 : v ≤ mx := le_omax _ _ hmx v hv
      have hlt : mn < mx :=
        lt_of_le_of_ne (omin_le _ _ hmn mx (omax_mem _ _ hmx)) (Ne.symm hne)
      have hpos : (0 : ℚ) < mx - mn := sub_pos.mpr hlt
      constructor
      · rw [← hxy]
        exact div_nonneg (sub_nonneg.mpr h1) (le_of_lt hpos)
      · rw [← hxy]
        exact (div_le_one hpos).mpr (sub_le_sub_right h2 mn)
  · intro hd x hx
    rw [minmax_degen_eq _ hd] at hx
    obtain ⟨y, -, hy⟩ := List.mem_map.mp hx
    exact hy.symm

theorem gL3_vals : groupVals gL3 "g" = [some 1, some 2, none] := rfl

/-- Counterexample to C3 as stated: in the non-degenerate group
[1, 2, missing] the third min-max entry is MISSING, so not every entry of
the group lies in [0, 1] — only the defined entries do. -/
theorem claim_C3_counterexample :
    mmDegenB (groupVals gL3 "g") = false ∧
    _minmax (groupVals gL3 "g") = [some 0, some 1, none] ∧
    ¬ (∀ x ∈ _minmax (groupVals gL3 "g"), ∃ q : ℚ, x = some q ∧ 0 ≤ q ∧ q ≤ 1) := by
  have h1 : mmDegenB (groupVals gL3 "g") = false := by
    rw [gL3_vals]
    norm_num [mmDegenB, smin, smax, omin, omax, optVals]
  have h2 : _minmax (groupVals gL3 "g") = [some 0, some 1, none] := by
    rw [gL3_vals]
    norm_num [_minmax, smin, smax, omin, omax, optVals]
  refine ⟨h1, h2, fun hall => ?_⟩
  obtain ⟨q, hq, -⟩ := hall none (by rw [h2]; simp)
  cases hq

/-- Witness for the amended C3 at the group [1, 2, missing]: the defined
entry 1 lies in [0, 1]. -/
theorem claim_C3_witness :
    mmDegenB (groupVals gL3 "g") = false ∧
    some 1 ∈ _minmax (groupVals gL3 "g") ∧
    (0 ≤ (1 : ℚ) ∧ (1 : ℚ) ≤ 1) := by
  have h1 : mmDegenB (groupVals gL3 "g") = false := by
    rw [gL3_vals]
    norm_num [mmDegenB, smin, smax, omin, omax, optVals]
  have h2 : _minmax (groupVals gL3 "g") = [some 0, some 1, none] := by
    rw [gL3_vals]
    norm_num [_minmax, smin, smax, omin, omax, optVals]
  have hmem : some (1 : ℚ) ∈ _minmax (groupVals gL3 "g") := by
    rw [h2]; simp
  exact ⟨h1, hmem, (claim_C3_amended gL3 "g").1 h1 (some 1) hmem 1 rfl⟩

/-! ### Claim C4 -/

theorem smean_some (s : List (Option ℚ)) (m : ℚ) (h : smean s = some m) :
    (optVals s).length ≠ 0 ∧ m = (optVals s).sum / ((optVals s).length : ℚ) := by
  unfold smean at h
  by_cases hl : (optVals s).length = 0
  · rw [if_pos hl] at h; cases h
  · rw [if_neg hl] at h
    cases h
    exact ⟨hl, rfl⟩

theorem zscore_degen_eq (s : List (Option ℚ)) (h : zDegenB s = true) :
    _zscore s = s.map (fun _ => some (0 : ℝ)) := by
  unfold zDegenB at h
  unfold _zscore
  cases hm : smean s with
  | none => simp [hm]
  | some m =>
    cases hv : svar s with
    | none => simp [hm, hv]
    | some vr =>
      simp only [hm, hv, beq_iff_eq] at h
      simp [hm, hv, h]

theorem zscore_nondegen_eq (s : List (Option ℚ)) (h : zDegenB s = false) :
    ∃ m vr, smean s = some m ∧ svar s = some vr ∧ vr ≠ 0 ∧
      _zscore s =
        s.map (Option.map (fun v : ℚ =>
          ((v : ℝ) - (m : ℝ)) / Real.sqrt (vr : ℝ))) := by
  unfold zDegenB at h
  cases hm : smean s with
  | none => rw [hm] at h; cases h
  | some m =>
    cases hv : svar s with
    | none => rw [hm, hv] at h; cases h
    | some vr =>
      rw [hm, hv] at h
      simp only [beq_eq_false_iff_ne, ne_eq] at h
      refine ⟨m, vr, rfl, rfl, h, ?_⟩
      unfold _zscore
      simp [hm, hv, h]

theorem cast_sum_rat_list (l : List ℚ) :
    ((l.sum : ℚ) : ℝ) = (l.map (fun q : ℚ => (q : ℝ))).sum := by
  induction l with
  | nil => simp
  | cons x xs ih => simp [ih]

theorem sum_map_sub_const (l : List ℚ) (c : ℚ) :
    (l.map (fun x => x - c)).sum = l.sum - (l.length : ℚ) * c := by
  induction l with
  | nil => simp
  | cons x xs ih =>
    simp only [List.map_cons, List.sum_cons, ih, List.length_cons]
    push_cast
    ring

/-- Claim C4: for every distinct type group of the long table, the mean of
value_zscore over the group's non-missing members is exactly 0 (hence
within any floating tolerance), unless the group is degenerate (standard
deviation undefined or zero), in which case every member of the group has
value_zscore exactly 0.0. -/
theorem claim_C4 (L : List LongRow) (t : String) :
    (zDegenB (groupVals L t) = false → meanSome (_zscore (groupVals L t)) = 0) ∧
    (zDegenB (groupVals L t) = true → ∀ x ∈ _zscore (groupVals L t), x = some 0) := by
  constructor
  · intro hnd
    obtain ⟨m, vr, hm, hv, hvr, heq⟩ := zscore_nondegen_eq _ hnd
    obtain ⟨hlen, hmval⟩ := smean_some _ _ hm
    unfold meanSome
    rw [heq]
    unfold optVals at hlen hmval
    rw [List.reduceOption_map]
    have hnum :
        ((groupVals L t).reduceOption.map (fun v : ℚ =>
          ((v : ℝ) - (m : ℝ)) / Real.sqrt (vr : ℝ))).sum = 0 := by
      have hstep : (groupVals L t).reduceOption.map (fun v : ℚ =>
            ((v : ℝ) - (m : ℝ)) / Real.sqrt (vr : ℝ)) =
          (groupVals L t).reduceOption.map (fun v : ℚ =>
            (((v - m : ℚ) : ℝ) * (Real.sqrt (vr : ℝ))⁻¹)) := by
        refine List.map_congr_left (fun v _ => ?_)
        push_cast
        rw [div_eq_mul_inv]
      rw [hstep, List.sum_map_mul_right]
      have hkey : ((groupVals L t).reduceOption.map (fun v : ℚ => v - m)).sum = 0 := by
        rw [sum_map_sub_const, hmval]
        have hne : ((groupVals L t).reduceOption.length : ℚ) ≠ 0 := by
          exact_mod_cast hlen
        field_simp
      have hcast : ((groupVals L t).reduceOption.map (fun v : ℚ =>
            ((v - m : ℚ) : ℝ))).sum =
          ((((groupVals L t).reduceOption.map (fun v : ℚ => v - m)).sum : ℚ) : ℝ) := by
        rw [cast_sum_rat_list, List.map_map]
        rfl
      rw [hcast, hkey]
      simp
    rw [hnum]
    simp
  · intro hd x hx
    rw [zscore_degen_eq _ hd] at hx
    obtain ⟨y, -, hy⟩ := List.mem_map.mp hx
    exact hy.symm

/-- Witness for C4 at the group [1, 3] (variance 2, mean 2): the z-score
mean over the group is exactly 0. -/
theorem claim_C4_witness :
    zDegenB (groupVals gL4 "g") = false ∧
    meanSome (_zscore (groupVals gL4 "g")) = 0 := by
  have h : zDegenB (groupVals gL4 "g") = false := by
    show zDegenB [some 1, some 3] = false
    norm_num [zDegenB, smean, svar, optVals]
  exact ⟨h, (claim_C4 gL4 "g").1 h⟩

/-! ### Claim C10: degeneracy of the two normalizations coincides -/

theorem mmDegenB_iff (s : List (Option ℚ)) :
    mmDegenB s = true ↔ ∀ x ∈ optVals s, ∀ y ∈ optVals s, x = y := by
  unfold mmDegenB smin smax
  generalize optVals s = v
  cases v with
  | nil => simp [omin, omax]
  | cons a as =>
    obtain ⟨mn, hmn⟩ : ∃ mn, omin (a :: as) = some mn := ⟨_, rfl⟩
    obtain ⟨mx, hmx⟩ : ∃ mx, omax (a :: as) = some mx := ⟨_, rfl⟩
    rw [hmn, hmx]
    simp only [beq_iff_eq]
    constructor
    · intro he x hx y hy
      have h1 := omin_le _ _ hmn x hx
      have h2 := le_omax _ _ hmx x hx
      have h3 := omin_le _ _ hmn y hy
      have h4 := le_omax _ _ hmx y hy
      rw [he] at h1 h3
      exact (le_antisymm h2 h1).trans (le_antisymm h4 h3).symm
    · intro hall
      exact hall mn (omin_mem _ _ hmn) mx (omax_mem _ _ hmx)

theorem smean_none_iff (s : List (Option ℚ)) :
    smean s = none ↔ optVals s = [] := by
  unfold smean
  by_cases h : (optVals s).length = 0
  · rw [if_pos h]
    simp [List.length_eq_zero.mp h]
  · rw [if_neg h]
    simp only [reduceCtorEq, false_iff]
    intro he
    exact h (by rw [he]; rfl)

theorem svar_some_char (s : List (Option ℚ)) (vr : ℚ) (h : svar s = some vr) :
    2 ≤ (optVals s).length ∧
      vr = ((optVals s).map (fun x =>
          (x - (optVals s).sum / ((optVals s).length : ℚ)) *
          (x - (optVals s).sum / ((optVals s).length : ℚ)))).sum /
        (((optVals s).length : ℚ) - 1) := by
  unfold svar at h
  by_cases hl : (optVals s).length < 2
  · rw [if_pos hl] at h; cases h
  · rw [if_neg hl] at h
    cases h
    exact ⟨Nat.le_of_not_lt hl, rfl⟩

theorem list_sum_nonneg (l : List ℚ) (h : ∀ x ∈ l, 0 ≤ x) : 0 ≤ l.sum := by
  induction l with
  | nil => simp
  | cons x xs ih =>
    simp only [List.sum_cons]
    exact add_nonneg (h x (List.mem_cons_self _ _))
      (ih (fun y hy => h y (List.mem_cons_of_mem _ hy)))

theorem list_sum_zero_iff (l : List ℚ) (h : ∀ x ∈ l, 0 ≤ x) :
    l.sum = 0 ↔ ∀ x ∈ l, x = 0 := by
  induction l with
  | nil => simp
  | cons x xs ih =>
    simp only [List.sum_cons, List.mem_cons]
    have hx : 0 ≤ x := h x (List.mem_cons_self _ _)
    have hxs : ∀ y ∈ xs, 0 ≤ y := fun y hy => h y (List.mem_cons_of_mem _ hy)
    have hs : 0 ≤ xs.sum := list_sum_nonneg xs hxs
    constructor
    · intro hz
      have hx0 : x = 0 := by linarith [hs, hx]
      have hs0 : xs.sum = 0 := by linarith
      intro y hy
      rcases hy with hy | hy
      · exact hy ▸ hx0
      · exact ((ih hxs).mp hs0) y hy
    · intro hall
      have hx0 : x = 0 := hall x (Or.inl rfl)
      have hs0 : xs.sum = 0 := (ih hxs).mpr (fun y hy => hall y (Or.inr hy))
      rw [hx0, hs0, add_zero]

theorem sum_of_allEq (l : List ℚ) (c : ℚ) (h : ∀ x ∈ l, x = c) :
    l.sum = (l.length : ℚ) * c := by
  induction l with
  | nil => simp
  | cons x xs ih =>
    simp only [List.sum_cons, List.length_cons]
    rw [h x (List.mem_cons_self _ _),
      ih (fun y hy => h y (List.mem_cons_of_mem _ hy))]
    push_cast
    ring

theorem zDegenB_iff (s : List (Option ℚ)) :
    zDegenB s = true ↔ ∀ x ∈ optVals s, ∀ y ∈ optVals s, x = y := by
  cases hm : smean s with
  | none =>
    have hv : optVals s = [] := (smean_none_iff s).mp hm
    unfold zDegenB
    rw [hm, hv]
    simp
  | some m =>
    cases hvr : svar s with
    | none =>
      unfold zDegenB
      rw [hm, hvr]
      simp only [true_iff]
      unfold svar at hvr
      by_cases hl : (optVals s).length < 2
      · obtain ⟨hne, -⟩ := smean_some s m hm
        have hlen : (optVals s).length = 1 := by omega
        obtain ⟨a, ha⟩ := List.length_eq_one.mp hlen
        rw [ha]
        intro x hx y hy
        simp only [List.mem_singleton] at hx hy
        rw [hx, hy]
      · rw [if_neg hl] at hvr; cases hvr
    | some vr =>
      unfold zDegenB
      rw [hm, hvr]
      simp only [beq_iff_eq]
      obtain ⟨hlen2, hvrval⟩ := svar_some_char s vr hvr
      obtain ⟨hne, hmval⟩ := smean_some s m hm
      have hden : (((optVals s).length : ℚ) - 1) ≠ 0 := by
        have : (2 : ℚ) ≤ ((optVals s).length : ℚ) := by exact_mod_cast hlen2
        intro hz
        rw [sub_eq_zero] at hz
        rw [hz] at this
        norm_num at this
      have hsq : ∀ x ∈ (optVals s).map (fun x =>
          (x - (optVals s).sum / ((optVals s).length : ℚ)) *
          (x - (optVals s).sum / ((optVals s).length : ℚ))), 0 ≤ x := by
        intro x hx
        obtain ⟨y, -, hy⟩ := List.mem_map.mp hx
        rw [← hy]
        exact mul_self_nonneg _
      constructor
      · intro hz x hx y hy
        rw [hvrval, div_eq_zero_iff] at hz
        rcases hz with hz | hz
        · have hall := (list_sum_zero_iff _ hsq).mp hz
          have hxm : x = (optVals s).sum / ((optVals s).length : ℚ) := by
            have := hall _ (List.mem_map_of_mem _ hx)
            have := mul_self_eq_zero.mp this
            linarith [sub_eq_zero.mp this]
          have hym : y = (optVals s).sum / ((optVals s).length : ℚ) := by
            have := hall _ (List.mem_map_of_mem _ hy)
            have := mul_self_eq_zero.mp this
            linarith [sub_eq_zero.mp this]
          rw [hxm, hym]
        · exact absurd hz hden
      · intro hall
        rw [hvrval]
        have hnil : optVals s ≠ [] := fun he => hne (by rw [he]; rfl)
        obtain ⟨x₀, hx₀⟩ := List.exists_mem_of_ne_nil _ hnil
        have hc : ∀ x ∈ optVals s, x = x₀ := fun x hx => hall x hx x₀ hx₀
        have hsum : (optVals s).sum = ((optVals s).length : ℚ) * x₀ :=
          sum_of_allEq _ _ hc
        have hmx : (optVals s).sum / ((optVals s).length : ℚ) = x₀ := by
          rw [hsum]
          have hne' : ((optVals s).length : ℚ) ≠ 0 := by exact_mod_cast hne
          field_simp
        have : ∀ y ∈ (optVals s).map (fun x =>
            (x - (optVals s).sum / ((optVals s).length : ℚ)) *
            (x - (optVals s).sum / ((optVals s).length : ℚ))), y = 0 := by
          intro y hy
          obtain ⟨z, hz, hzy⟩ := List.mem_map.mp hy
          rw [← hzy, hmx, hc z hz]
          ring
        rw [(list_sum_zero_iff _ hsq).mpr this, zero_div]

/-- The two degeneracy tests agree: a type group is `_minmax`-degenerate
exactly when it is `_zscore`-degenerate (both say: at most one distinct
non-missing value). -/
theorem mmDegenB_eq_zDegenB (s : List (Option ℚ)) : mmDegenB s = zDegenB s := by
  cases hz : zDegenB s with
  | true =>
    exact (mmDegenB_iff s).mpr ((zDegenB_iff s).mp hz)
  | false =>
    cases hmm : mmDegenB s with
    | false => rfl
    | true =>
      have := (zDegenB_iff s).mpr ((mmDegenB_iff s).mp hmm)
      rw [hz] at this
      cases this

/-- Claim C10: for a long-table row whose value is missing, if the row's
type group is degenerate (at most one distinct non-missing value — the
min-equals-max, zero/undefined-std and all-missing cases coincide, see
`mmDegenB_eq_zDegenB`) then its value_minmax and value_zscore are exactly
0.0; in a non-degenerate group both are missing, not any number. -/
theorem claim_C10 (L : List LongRow) (t : String) (i : Nat)
    (h : (groupVals L t)[i]? = some none) :
    (mmDegenB (groupVals L t) = true →
      (_minmax (groupVals L t))[i]? = some (some 0) ∧
      (_zscore (groupVals L t))[i]? = some (some 0)) ∧
    (mmDegenB (groupVals L t) = false →
      (_minmax (groupVals L t))[i]? = some none ∧
      (_zscore (groupVals L t))[i]? = some none) := by
  constructor
  · intro hd
    have hzd : zDegenB (groupVals L t) = true := by
      rw [← mmDegenB_eq_zDegenB]; exact hd
    constructor
    · rw [minmax_degen_eq _ hd, List.getElem?_map, h]
      rfl
    · rw [zscore_degen_eq _ hzd, List.getElem?_map, h]
      rfl
  · intro hnd
    have hznd : zDegenB (groupVals L t) = false := by
      rw [← mmDegenB_eq_zDegenB]; exact hnd
    obtain ⟨mn, mx, -, -, -, hmmeq⟩ := minmax_nondegen_eq _ hnd
    obtain ⟨m, vr, -, -, -, hzeq⟩ := zscore_nondegen_eq _ hznd
    constructor
    · rw [hmmeq, List.getElem?_map, h]
      rfl
    · rw [hzeq, List.getElem?_map, h]
      rfl

/-- Witness for C10: the missing row of the non-degenerate group
[1, 2, missing] gets missing normalized values, while the missing row of
the degenerate group [5, 5, missing] gets exactly 0.0 in both columns. -/
theorem claim_C10_witness :
    ((_minmax (groupVals gL3 "g"))[2]? = some none ∧
     (_zscore (groupVals gL3 "g"))[2]? = some none) ∧
    ((_minmax (groupVals gL10 "g"))[2]? = some (some 0) ∧
     (_zscore (groupVals gL10 "g"))[2]? = some (some 0)) := by
  have hval3 : (groupVals gL3 "g")[2]? = some none := by rw [gL3_vals]; rfl
  have hnd : mmDegenB (groupVals gL3 "g") = false := by
    rw [gL3_vals]
    norm_num [mmDegenB, smin, smax, omin, omax, optVals]
  have hval10 : (groupVals gL10 "g")[2]? = some none := rfl
  have hd : mmDegenB (groupVals gL10 "g") = true := by
    show mmDegenB [some 5, some 5, none] = true
    norm_num [mmDegenB, smin, smax, omin, omax, optVals]
  exact ⟨(claim_C10 gL3 "g" 2 hval3).2 hnd, (claim_C10 gL10 "g" 2 hval10).1 hd⟩

/-! ### Sorting lemmas for the section-1 queries -/

theorem insertLe_perm {α : Type} (le : α → α → Bool) (x : α) :
    ∀ l : List α, List.Perm (insertLe le x l) (x :: l) := by
  intro l
  induction l with
  | nil => exact List.Perm.refl _
  | cons y ys ih =>
    unfold insertLe
    by_cases h : le x y = true
    · rw [if_pos h]
    · rw [if_neg h]
      exact (List.Perm.cons y ih).trans (List.Perm.swap x y ys)

theorem isort_perm {α : Type} (le : α → α → Bool) :
    ∀ l : List α, List.Perm (isort le l) l := by
  intro l
  induction l with
  | nil => exact List.Perm.refl _
  | cons x xs ih =>
    exact (insertLe_perm le x (isort le xs)).trans (List.Perm.cons x ih)

theorem insertLe_sorted {α : Type} (le : α → α → Bool)
    (htot : ∀ a b, le a b = true ∨ le b a = true)
    (htrans : ∀ a b c, le a b = true → le b c = true → le a c = true)
    (x : α) :
    ∀ l : List α, l.Pairwise (fun a b => le a b = true) →
      (insertLe le x l).Pairwise (fun a b => le a b = true) := by
  intro l
  induction l with
  | nil =>
    intro _
    exact List.pairwise_singleton _ _
  | cons y ys ih =>
    intro h
    obtain ⟨h1, h2⟩ := List.pairwise_cons.mp h
    unfold insertLe
    by_cases hxy : le x y = true
    · rw [if_pos hxy]
      refine List.pairwise_cons.mpr ⟨?_, h⟩
      intro z hz
      rcases List.mem_cons.mp hz with hz | hz
      · exact hz ▸ hxy
      · exact htrans x y z hxy (h1 z hz)
    · rw [if_neg hxy]
      refine List.pairwise_cons.mpr ⟨?_, ih h2⟩
      intro z hz
      have hz' := (insertLe_perm le x ys).mem_iff.mp hz
      rcases List.mem_cons.mp hz' with hz' | hz'
      · subst hz'
        rcases htot y z with hy | hy
        · exact hy
        · exact absurd hy hxy
      · exact h1 z hz'

theorem isort_sorted {α : Type} (le : α → α → Bool)
    (htot : ∀ a b, le a b = true ∨ le b a = true)
    (htrans : ∀ a b c, le a b = true → le b c = true → le a c = true) :
    ∀ l : List α, (isort le l).Pairwise (fun a b => le a b = true) := by
  intro l
  induction l with
  | nil => exact List.Pairwise.nil
  | cons x xs ih => exact insertLe_sorted le htot htrans x _ ih

theorem maLe_total : ∀ a b : Int × Option ℚ, maLe a b = true ∨ maLe b a = true := by
  intro a b
  unfold maLe
  cases a.2 with
  | none =>
    cases b.2 with
    | none => exact Or.inl rfl
    | some y => exact Or.inr rfl
  | some x =>
    cases b.2 with
    | none => exact Or.inl rfl
    | some y =>
      rcases le_total x y with h | h
      · exact Or.inl (by simp [h])
      · exact Or.inr (by simp [h])

theorem maLe_trans : ∀ a b c : Int × Option ℚ,
    maLe a b = true → maLe b c = true → maLe a c = true := by
  intro a b c hab hbc
  unfold maLe at hab hbc ⊢
  cases ha : a.2 <;> cases hb : b.2 <;> cases hc : c.2 <;>
    simp_all only [decide_eq_true_eq] <;>
    first
      | rfl
      | exact le_trans hab hbc
      | simp_all

theorem mem_reduceOption_snd {ma : List (Int × Option ℚ)} {v : ℚ} :
    v ∈ (ma.map Prod.snd).reduceOption ↔ ∃ p ∈ ma, p.2 = some v := by
  rw [List.reduceOption_mem_iff, List.mem_map]

/-- In a `maLe`-sorted list of defined year-means, the head carries the
minimum mean. -/
theorem sorted_head_min (p₀ : Int × Option ℚ) (rest : List (Int × Option ℚ))
    (hsort : (p₀ :: rest).Pairwise (fun a b => maLe a b = true))
    (hsome : ∀ p ∈ p₀ :: rest, p.2.isSome)
    (vi : ℚ)
    (hmin : omin (((p₀ :: rest).map Prod.snd).reduceOption) = some vi) :
    p₀.2 = some vi := by
  obtain ⟨v₀, hv₀⟩ := Option.isSome_iff_exists.mp (hsome p₀ (List.mem_cons_self _ _))
  have hv₀mem : v₀ ∈ ((p₀ :: rest).map Prod.snd).reduceOption :=
    mem_reduceOption_snd.mpr ⟨p₀, List.mem_cons_self _ _, hv₀⟩
  have h1 : vi ≤ v₀ := omin_le _ _ hmin v₀ hv₀mem
  have h2 : v₀ ≤ vi := by
    obtain ⟨p, hp, hpv⟩ := mem_reduceOption_snd.mp (omin_mem _ _ hmin)
    rcases List.mem_cons.mp hp with hp | hp
    · rw [hp] at hpv
      exact le_of_eq (Option.some.inj (hv₀.symm.trans hpv))
    · have hle := (List.pairwise_cons.mp hsort).1 p hp
      unfold maLe at hle
      rw [hv₀, hpv] at hle
      simpa using hle
  rw [hv₀, le_antisymm h2 h1]

/-- In a `maLe`-sorted list of defined year-means, the last element
carries the maximum mean. -/
theorem sorted_last_max (ma : List (Int × Option ℚ))
    (hsort : ma.Pairwise (fun a b => maLe a b = true))
    (hsome : ∀ p ∈ ma, p.2.isSome)
    (q₀ : Int × Option ℚ) (hlast : ma.getLast? = some q₀)
    (vf : ℚ)
    (hmax : omax ((ma.map Prod.snd).reduceOption) = some vf) :
    q₀.2 = some vf := by
  rw [List.getLast?_eq_head?_reverse] at hlast
  cases hr : ma.reverse with
  | nil => rw [hr] at hlast; cases hlast
  | cons q rrest =>
    rw [hr] at hlast
    simp only [List.head?_cons, Option.some.injEq] at hlast
    rw [hlast] at hr
    have hrev : (q₀ :: rrest).Pairwise (fun a b => maLe b a = true) := by
      rw [← hr]
      exact List.pairwise_reverse.mpr hsort
    have hq₀ : q₀ ∈ ma := by
      rw [← List.mem_reverse, hr]
      exact List.mem_cons_self _ _
    obtain ⟨v₁, hv₁⟩ := Option.isSome_iff_exists.mp (hsome q₀ hq₀)
    have hv₁mem : v₁ ∈ ((ma.map Prod.snd).reduceOption) :=
      mem_reduceOption_snd.mpr ⟨q₀, hq₀, hv₁⟩
    have h1 : v₁ ≤ vf := le_omax _ _ hmax v₁ hv₁mem
    have h2 : vf ≤ v₁ := by
      obtain ⟨p, hp, hpv⟩ := mem_reduceOption_snd.mp (omax_mem _ _ hmax)
      have hp2 : p ∈ q₀ :: rrest := by
        rw [← hr, List.mem_reverse]
        exact hp
      rcases List.mem_cons.mp hp2 with hpq | hpq
      · rw [hpq] at hpv
        exact le_of_eq (Option.some.inj (hpv.symm.trans hv₁))
      · have hle := (List.pairwise_cons.mp hrev).1 p hpq
        unfold maLe at hle
        rw [hv₁, hpv] at hle
        simpa using hle
    rw [hv₁, le_antisymm h2 h1]

/-! ### Claim C1 -/

theorem media_ano_eq_isort (L : List LongRow) (t : String) :
    media_ano L t = isort maLe
      ((isort (fun a b => decide (a ≤ b))
        (firstDedup ((L.filter (fun r => r.tipo = t)).map (fun r => r.ano)))).map
        (fun a => (a, smean (((L.filter (fun r => r.tipo = t)).filter
            (fun r => r.ano = a)).map (fun r => r.valor))))) := rfl

theorem media_ano_sorted (L : List LongRow) (t : String) :
    (media_ano L t).Pairwise (fun a b => maLe a b = true) := by
  rw [media_ano_eq_isort]
  exact isort_sorted maLe maLe_total maLe_trans _

/-- Claim C1, amended: the trend check sorts the per-year means by VALUE
(ascending, `sort_values`), so `valor_ini` is the smallest per-year mean
and `valor_fim` the largest, regardless of chronology.  With at least two
year groups, all of whose means are defined, the label is "growth" when
the smallest mean exceeds 1.05 times the largest (possible only for
negative means), "decline" when the smallest is below 0.95 times the
largest, and "stable" otherwise.  Means of 100 (year 1) and 94 (year 2)
therefore yield "decline", not "growth". -/
theorem claim_C1_amended (L : List LongRow) (t : String) (vi vf : ℚ)
    (hlen : 2 ≤ (media_ano L t).length)
    (hsome : ∀ p ∈ media_ano L t, p.2.isSome)
    (hmin : omin (((media_ano L t).map Prod.snd).reduceOption) = some vi)
    (hmax : omax (((media_ano L t).map Prod.snd).reduceOption) = some vf) :
    tendencia L t =
      if vf * (105 / 100) < vi then Tendencia.crescimento
      else if vi < vf * (95 / 100) then Tendencia.queda
      else Tendencia.estavel := by
  have hsort := media_ano_sorted L t
  unfold tendencia
  rw [if_pos hlen]
  cases hma : media_ano L t with
  | nil =>
    rw [hma] at hlen
    simp at hlen
  | cons p₀ rest =>
    rw [hma] at hsort hsome hmin hmax
    have hhead : p₀.2 = some vi := sorted_head_min p₀ rest hsort hsome vi hmin
    have hne : (p₀ :: rest) ≠ [] := List.cons_ne_nil _ _
    have hlastq : (p₀ :: rest).getLast? = some ((p₀ :: rest).getLast hne) :=
      List.getLast?_eq_getLast _ hne
    have hlast : ((p₀ :: rest).getLast hne).2 = some vf :=
      sorted_last_max (p₀ :: rest) hsort hsome _ hlastq vf hmax
    simp only [List.head?_cons, Option.map_some', Option.getD_some, hlastq, hhead, hlast]
    by_cases h1 : vf * (105 / 100) < vi
    · rw [if_pos h1]
      have hgt : optGt (some vi) (some (vf * (105 / 100))) = true := by
        simp [optGt, h1]
      rw [hgt]
      simp
    · rw [if_neg h1]
      have hgt : optGt (some vi) (some (vf * (105 / 100))) = false := by
        simp only [optGt, decide_eq_false_iff_not]
        exact h1
      rw [hgt]
      by_cases h2 : vi < vf * (95 / 100)
      · rw [if_pos h2]
        have hlt : optLt (some vi) (some (vf * (95 / 100))) = true := by
          simp [optLt, h2]
        rw [hlt]
        simp
      · rw [if_neg h2]
        have hlt : optLt (some vi) (some (vf * (95 / 100))) = false := by
          simp only [optLt, decide_eq_false_iff_not]
          exact h2
        rw [hlt]
        simp

theorem gTrend_media :
    media_ano gTrend "g" = [(2, some 94), (1, some 100)] := by
  norm_num [media_ano, firstDedup, firstDedupAux, isort, insertLe, maLe,
    smean, optVals, gTrend]

/-- Counterexample to C1 as stated: with per-year group means 100 (year 1)
and 94 (year 2) the code labels the trend "queda" (decline), not
"crescimento" (growth): `sort_values()` sorts the per-year means by value,
so `valor_ini` is 94 (the smaller mean) and `valor_fim` is 100, and
94 < 100 * 0.95 selects the decline branch. -/
theorem claim_C1_counterexample :
    media_ano gTrend "g" = [(2, some 94), (1, some 100)] ∧
    tendencia gTrend "g" = Tendencia.queda ∧
    tendencia gTrend "g" ≠ Tendencia.crescimento := by
  have h2 : tendencia gTrend "g" = Tendencia.queda := by
    norm_num [tendencia, gTrend_media, optGt, optLt]
  refine ⟨gTrend_media, h2, ?_⟩
  rw [h2]
  intro hh
  cases hh

/-- Witness for the amended C1 at `gTrend`: smallest mean 94, largest 100,
and the label is "queda". -/
theorem claim_C1_witness :
    tendencia gTrend "g" = Tendencia.queda := by
  have hlen : 2 ≤ (media_ano gTrend "g").length := by
    rw [gTrend_media]
    norm_num
  have hsome : ∀ p ∈ media_ano gTrend "g", p.2.isSome := by
    rw [gTrend_media]
    intro p hp
    rcases List.mem_cons.mp hp with h | h
    · rw [h]; rfl
    · simp only [List.mem_singleton] at h
      rw [h]; rfl
  have hmin : omin (((media_ano gTrend "g").map Prod.snd).reduceOption) = some 94 := by
    rw [gTrend_media]
    norm_num [omin, List.reduceOption]
  have hmax : omax (((media_ano gTrend "g").map Prod.snd).reduceOption) = some 100 := by
    rw [gTrend_media]
    norm_num [omax, List.reduceOption]
  rw [claim_C1_amended gTrend "g" 94 100 hlen hsome hmin hmax]
  norm_num

/-! ### Claim C8 -/

theorem rkLe_total : ∀ a b : Cell × Option ℚ, rkLe a b = true ∨ rkLe b a = true := by
  intro a b
  unfold rkLe
  cases a.2 with
  | none =>
    cases b.2 with
    | none => exact Or.inl rfl
    | some y => exact Or.inr rfl
  | some x =>
    cases b.2 with
    | none => exact Or.inl rfl
    | some y =>
      rcases le_total y x with h | h
      · exact Or.inl (by simp [h])
      · exact Or.inr (by simp [h])

theorem rkLe_trans : ∀ a b c : Cell × Option ℚ,
    rkLe a b = true → rkLe b c = true → rkLe a c = true := by
  intro a b c hab hbc
  unfold rkLe at hab hbc ⊢
  cases ha : a.2 <;> cases hb : b.2 <;> cases hc : c.2 <;>
    simp_all only [decide_eq_true_eq] <;>
    first
      | rfl
      | exact le_trans hbc hab
      | simp_all

theorem rank_media_eq_isort (L : List LongRow) (t : String) :
    rank_media L t = isort rkLe
      ((firstDedup ((L.filter (fun r => r.tipo = t)).map (fun r => r.municipio))).map
        (fun m => (m, smean (((L.filter (fun r => r.tipo = t)).filter
            (fun r => r.municipio = m)).map (fun r => r.valor))))) := rfl

/-- Claim C8, amended: the rank-by-type query groups ALL municipalities
appearing in the rows of the chosen type — including those with no
non-missing value, whose mean is missing (NaN) — computes each group's
mean over its non-missing values, and sorts descending by mean with
missing means last.  It does NOT drop municipalities lacking non-missing
values. -/
theorem claim_C8_amended (L : List LongRow) (t : String) :
    (((rank_media L t).map Prod.fst).Perm
      (firstDedup ((L.filter (fun r => r.tipo = t)).map (fun r => r.municipio)))) ∧
    (∀ p ∈ rank_media L t,
      p.2 = smean (((L.filter (fun r => r.tipo = t)).filter
        (fun r => r.municipio = p.1)).map (fun r => r.valor))) ∧
    (rank_media L t).Pairwise (fun a b => rkLe a b = true) := by
  have hperm := isort_perm rkLe
    ((firstDedup ((L.filter (fun r => r.tipo = t)).map (fun r => r.municipio))).map
      (fun m => (m, smean (((L.filter (fun r => r.tipo = t)).filter
          (fun r => r.municipio = m)).map (fun r => r.valor)))))
  refine ⟨?_, ?_, ?_⟩
  · rw [rank_media_eq_isort]
    have hthis := hperm.map Prod.fst
    rw [List.map_map] at hthis
    have h2 : ∀ (X : List Cell) (f : Cell → Option ℚ),
        List.map (Prod.fst ∘ fun m => (m, f m)) X = X := by
      intro X f
      induction X with
      | nil => rfl
      | cons a as ih =>
        show a :: List.map _ as = a :: as
        rw [ih]
    rw [h2] at hthis
    exact hthis
  · intro p hp
    rw [rank_media_eq_isort] at hp
    have hp' := hperm.mem_iff.mp hp
    obtain ⟨m, -, hm⟩ := List.mem_map.mp hp'
    rw [← hm]
  · rw [rank_media_eq_isort]
    exact isort_sorted rkLe rkLe_total rkLe_trans _

theorem gRank_rank :
    rank_media gRank "g" = [(Cell.str "A", some 10), (Cell.str "B", none)] := by
  norm_num [rank_media, firstDedup, firstDedupAux, isort, insertLe, rkLe,
    smean, optVals, gRank, List.filter_cons, List.filter_nil,
    eq_false (show ¬("B" : String) = "A" by decide),
    eq_false (show ¬("A" : String) = "B" by decide)]

/-- Counterexample to C8 as stated: municipality B has no non-missing
value for type g, yet it appears in the ranking (last, with missing mean);
the query does not restrict to municipalities with at least one
non-missing value. -/
theorem claim_C8_counterexample :
    rank_media gRank "g" = [(Cell.str "A", some 10), (Cell.str "B", none)] ∧
    (∀ r ∈ gRank, r.municipio = Cell.str "B" → r.valor = none) ∧
    Cell.str "B" ∈ (rank_media gRank "g").map Prod.fst := by
  refine ⟨gRank_rank, by decide, ?_⟩
  rw [gRank_rank]
  simp

/-- Witness for the amended C8 at `gRank`. -/
theorem claim_C8_witness :
    (((rank_media gRank "g").map Prod.fst).Perm
      (firstDedup ((gRank.filter (fun r => r.tipo = "g")).map (fun r => r.municipio)))) ∧
    (Cell.str "A", some (10 : ℚ)).2 =
      smean (((gRank.filter (fun r => r.tipo = "g")).filter
        (fun r => r.municipio = (Cell.str "A", some (10 : ℚ)).1)).map (fun r => r.valor)) ∧
    (rank_media gRank "g").Pairwise (fun a b => rkLe a b = true) := by
  have hmem : (Cell.str "A", some (10 : ℚ)) ∈ rank_media gRank "g" := by
    rw [gRank_rank]
    simp
  exact ⟨(claim_C8_amended gRank "g").1,
    (claim_C8_amended gRank "g").2.1 _ hmem,
    (claim_C8_amended gRank "g").2.2⟩

/-! ### First-occurrence deduplication theory (for the pivot round trip) -/

theorem fdAux_nil {α : Type} [DecidableEq α] : ∀ n, firstDedupAux (α := α) n [] = [] := by
  intro n
  cases n <;> rfl

theorem fdAux_congr {α : Type} [DecidableEq α] :
    ∀ (n : Nat) (m : Nat) (l : List α), l.length ≤ n → l.length ≤ m →
      firstDedupAux n l = firstDedupAux m l := by
  intro n
  induction n with
  | zero =>
    intro m l hn _
    rw [List.length_eq_zero.mp (Nat.le_zero.mp hn)]
    rw [fdAux_nil, fdAux_nil]
  | succ n ih =>
    intro m l hn hm
    cases l with
    | nil => rw [fdAux_nil, fdAux_nil]
    | cons x xs =>
      cases m with
      | zero => simp at hm
      | succ k =>
        show x :: firstDedupAux n (xs.filter (fun y => y ≠ x)) =
          x :: firstDedupAux k (xs.filter (fun y => y ≠ x))
        have hlf := List.length_filter_le (fun y => decide (y ≠ x)) xs
        have h1 : (xs.filter (fun y => y ≠ x)).length ≤ n :=
          le_trans hlf (Nat.le_of_succ_le_succ hn)
        have h2 : (xs.filter (fun y => y ≠ x)).length ≤ k :=
          le_trans hlf (Nat.le_of_succ_le_succ hm)
        exact congrArg (List.cons x) (ih k _ h1 h2)

theorem fd_cons {α : Type} [DecidableEq α] (x : α) (xs : List α) :
    firstDedup (x :: xs) = x :: firstDedup (xs.filter (fun y => y ≠ x)) := by
  unfold firstDedup
  show x :: firstDedupAux xs.length (xs.filter (fun y => y ≠ x)) = _
  rw [fdAux_congr xs.length (xs.filter (fun y => y ≠ x)).length _
    (List.length_filter_le _ _) (le_refl _)]

theorem fd_nil {α : Type} [DecidableEq α] : firstDedup ([] : List α) = [] := rfl

theorem fd_mem_aux {α : Type} [DecidableEq α] :
    ∀ (n : Nat) (l : List α), l.length ≤ n → ∀ a, (a ∈ firstDedup l ↔ a ∈ l) := by
  intro n
  induction n with
  | zero =>
    intro l hn a
    rw [List.length_eq_zero.mp (Nat.le_zero.mp hn)]
    rfl
  | succ n ih =>
    intro l hn a
    cases l with
    | nil => rfl
    | cons x xs =>
      rw [fd_cons, List.mem_cons, List.mem_cons]
      have hlf : (xs.filter (fun y => y ≠ x)).length ≤ n :=
        le_trans (List.length_filter_le _ _) (Nat.le_of_succ_le_succ hn)
      rw [ih _ hlf a]
      by_cases hax : a = x
      · simp [hax]
      · simp only [hax, false_or]
        rw [List.mem_filter]
        simp [hax]

theorem fd_mem {α : Type} [DecidableEq α] (l : List α) (a : α) :
    a ∈ firstDedup l ↔ a ∈ l :=
  fd_mem_aux l.length l (le_refl _) a

theorem fd_nodup_aux {α : Type} [DecidableEq α] :
    ∀ (n : Nat) (l : List α), l.length ≤ n → (firstDedup l).Nodup := by
  intro n
  induction n with
  | zero =>
    intro l hn
    rw [List.length_eq_zero.mp (Nat.le_zero.mp hn)]
    exact List.nodup_nil
  | succ n ih =>
    intro l hn
    cases l with
    | nil => exact List.nodup_nil
    | cons x xs =>
      rw [fd_cons]
      have hlf : (xs.filter (fun y => y ≠ x)).length ≤ n :=
        le_trans (List.length_filter_le _ _) (Nat.le_of_succ_le_succ hn)
      refine List.nodup_cons.mpr ⟨?_, ih _ hlf⟩
      intro hx
      have := (fd_mem _ _).mp hx
      have := List.of_mem_filter this
      simp at this

theorem fd_nodup {α : Type} [DecidableEq α] (l : List α) : (firstDedup l).Nodup :=
  fd_nodup_aux l.length l (le_refl _)

theorem fd_self_aux {α : Type} [DecidableEq α] :
    ∀ (n : Nat) (l : List α), l.length ≤ n → l.Nodup → firstDedup l = l := by
  intro n
  induction n with
  | zero =>
    intro l hn _
    rw [List.length_eq_zero.mp (Nat.le_zero.mp hn)]
    rfl
  | succ n ih =>
    intro l hn hnd
    cases l with
    | nil => rfl
    | cons x xs =>
      rw [fd_cons]
      obtain ⟨hx, hxs⟩ := List.nodup_cons.mp hnd
      have hfe : xs.filter (fun y => y ≠ x) = xs := by
        apply List.filter_eq_self.mpr
        intro y hy
        simp only [decide_eq_true_eq]
        intro he
        exact hx (he ▸ hy)
      rw [hfe]
      rw [ih _ (Nat.le_of_succ_le_succ hn) hxs]

theorem fd_eq_self_of_nodup {α : Type} [DecidableEq α] (l : List α)
    (h : l.Nodup) : firstDedup l = l :=
  fd_self_aux l.length l (le_refl _) h

theorem fd_append_aux {α : Type} [DecidableEq α] :
    ∀ (n : Nat) (xs ys : List α), xs.length ≤ n → (∀ y ∈ ys, y ∈ xs) →
      firstDedup (xs ++ ys) = firstDedup xs := by
  intro n
  induction n with
  | zero =>
    intro xs ys hn hsub
    rw [List.length_eq_zero.mp (Nat.le_zero.mp hn)] at hsub ⊢
    cases ys with
    | nil => rfl
    | cons y ys' => exact absurd (hsub y (List.mem_cons_self _ _)) (List.not_mem_nil _)
  | succ n ih =>
    intro xs ys hn hsub
    cases xs with
    | nil =>
      cases ys with
      | nil => rfl
      | cons y ys' => exact absurd (hsub y (List.mem_cons_self _ _)) (List.not_mem_nil _)
    | cons x xs' =>
      rw [List.cons_append, fd_cons, fd_cons, List.filter_append]
      congr 1
      apply ih
      · exact le_trans (List.length_filter_le _ _) (Nat.le_of_succ_le_succ hn)
      · intro y hy
        have hy' := List.of_mem_filter hy
        have hyne : y ≠ x := by simpa using hy'
        have hymem := List.mem_of_mem_filter hy
        have := hsub y hymem
        rcases List.mem_cons.mp this with h | h
        · exact absurd h hyne
        · exact List.mem_filter.mpr ⟨h, by simpa using hyne⟩

theorem fd_append_subset {α : Type} [DecidableEq α] (xs ys : List α)
    (h : ∀ y ∈ ys, y ∈ xs) : firstDedup (xs ++ ys) = firstDedup xs :=
  fd_append_aux xs.length xs ys (le_refl _) h

theorem fd_flatMap_const {α β : Type} [DecidableEq β] (l : List α) (v : List β)
    (hl : l ≠ []) : firstDedup (l.flatMap (fun _ => v)) = firstDedup v := by
  cases l with
  | nil => exact absurd rfl hl
  | cons c l' =>
    rw [List.flatMap_cons]
    apply fd_append_subset
    intro y hy
    obtain ⟨a, -, hya⟩ := List.mem_flatMap.mp hy
    exact hya

theorem filter_replicate_ne {α : Type} [DecidableEq α] (k : Nat) (x : α) :
    (List.replicate k x).filter (fun y => y ≠ x) = [] := by
  induction k with
  | zero => rfl
  | succ k ih =>
    rw [List.replicate_succ, List.filter_cons]
    simp only [decide_eq_true_eq]
    rw [if_neg (by simp)]
    exact ih

theorem fd_flatMap_replicate {α γ : Type} [DecidableEq γ] :
    ∀ (l : List α) (M : Nat) (f : α → γ), 1 ≤ M → (l.map f).Nodup →
      firstDedup (l.flatMap (fun a => List.replicate M (f a))) = l.map f := by
  intro l
  induction l with
  | nil => intro M f _ _; rfl
  | cons a l' ih =>
    intro M f hM hnd
    rw [List.map_cons] at hnd
    obtain ⟨hne, hnd'⟩ := List.nodup_cons.mp hnd
    rw [List.flatMap_cons]
    obtain ⟨M', rfl⟩ : ∃ M', M = M' + 1 := ⟨M - 1, by omega⟩
    rw [List.replicate_succ, List.cons_append, fd_cons, List.filter_append,
      filter_replicate_ne]
    have hrest : (l'.flatMap (fun b => List.replicate (M' + 1) (f b))).filter
        (fun y => y ≠ f a) = l'.flatMap (fun b => List.replicate (M' + 1) (f b)) := by
      apply List.filter_eq_self.mpr
      intro y hy
      obtain ⟨b, hb, hyb⟩ := List.mem_flatMap.mp hy
      have : y = f b := List.eq_of_mem_replicate hyb
      simp only [decide_eq_true_eq, this]
      intro he
      exact hne (he ▸ List.mem_map_of_mem f hb)
    rw [List.nil_append, hrest, ih (M' + 1) f hM hnd']
    rfl

theorem find?_eq_some_unique {α : Type} (p : α → Bool) :
    ∀ (l : List α) (a : α), a ∈ l → p a = true →
      (∀ b ∈ l, p b = true → b = a) → l.find? p = some a := by
  intro l
  induction l with
  | nil => intro a ha; cases ha
  | cons x xs ih =>
    intro a ha hpa huniq
    by_cases hx : p x = true
    · rw [List.find?_cons_of_pos _ hx]
      rw [huniq x (List.mem_cons_self _ _) hx]
    · rw [List.find?_cons_of_neg _ hx]
      have hax : a ≠ x := fun he => hx (he ▸ hpa)
      have ha' : a ∈ xs := by
        rcases List.mem_cons.mp ha with h | h
        · exact absurd h hax
        · exact h
      exact ih a ha' hpa (fun b hb hpb => huniq b (List.mem_cons_of_mem _ hb) hpb)

theorem nodup_flatMap_prod {α β γ : Type} :
    ∀ (l : List α) (v : List β) (f : α → γ), (l.map f).Nodup → v.Nodup →
      (l.flatMap (fun a => v.map (fun m => (m, f a)))).Nodup := by
  intro l
  induction l with
  | nil => intro v f _ _; exact List.nodup_nil
  | cons a l' ih =>
    intro v f hnd hv
    rw [List.map_cons] at hnd
    obtain ⟨hne, hnd'⟩ := List.nodup_cons.mp hnd
    rw [List.flatMap_cons]
    refine List.nodup_append.mpr ⟨?_, ih v f hnd' hv, ?_⟩
    · exact hv.map (fun x y hxy => (Prod.mk.injEq _ _ _ _ ▸ hxy : _ ∧ _).1)
    · intro x hx hx'
      obtain ⟨m, -, hm⟩ := List.mem_map.mp hx
      obtain ⟨b, hb, hbm⟩ := List.mem_flatMap.mp hx'
      obtain ⟨m', -, hm'⟩ := List.mem_map.mp hbm
      have h1 : x.2 = f a := by rw [← hm]
      have h2 : x.2 = f b := by rw [← hm']
      have hba : f b = f a := h2.symm.trans h1
      exact hne (hba ▸ List.mem_map_of_mem f hb)

/-! ### Claim C2: the melt / pivot round trip -/

theorem map_const_eq_replicate {α β : Type} (l : List α) (b : β) :
    l.map (fun _ => b) = List.replicate l.length b := by
  induction l with
  | nil => rfl
  | cons x xs ih => simp [List.replicate_succ, ih]

theorem preparar_ok_mem (df : DF) (L : List LongRow)
    (h : preparar_df_long df = Except.ok L) : "Município" ∈ df.cols := by
  by_contra hm
  unfold preparar_df_long at h
  rw [if_neg hm] at h
  cases h

theorem getD_map_lt {α β : Type} (f : α → β) (l : List α) (j : Nat)
    (h : j < l.length) (d : β) : (l.map f).getD j d = f l[j] := by
  rw [List.getD_eq_getElem?_getD, List.getElem?_map,
    List.getElem?_eq_getElem h]
  rfl

theorem colOfDF_mk (cs : List String) (rows' : List (List Cell)) (c : String) :
    colOfDF ⟨cs, rows'⟩ c = rows'.map (fun r => r.getD (cs.indexOf c) Cell.missing) := rfl

theorem colsOf_perm_of (W df2 : DF)
    (hperm : df2.cols.Perm W.cols)
    (hcols : ∀ c ∈ W.cols, colOfDF W c = colOfDF df2 c) :
    eqUpToColOrder W df2 := by
  unfold eqUpToColOrder colsOf
  have h1 : W.cols.map (fun c => (c, colOfDF W c)) =
      W.cols.map (fun c => (c, colOfDF df2 c)) :=
    List.map_congr_left (fun c hc => by rw [hcols c hc])
  rw [h1]
  exact (hperm.map _).symm

/-- Claim C2, amended: for every wide table accepted by the reshaper whose
column names are distinct and canonical (`"<year>_<type>"` with distinct
(year, type) keys), whose municipality values are distinct, whose value
cells are all numeric-or-missing, and which has at least one row and one
value column, pivoting the long table's value column back by municipality
and (year, type) key reproduces the original wide table exactly, up to
column order.  Without these hypotheses the round trip fails: in
particular a non-coercible cell is silently coerced to missing and cannot
be recovered (see the counterexample). -/
theorem claim_C2_amended (df : DF) (L : List LongRow)
    (hok : preparar_df_long df = Except.ok L)
    (hnodupC : df.cols.Nodup)
    (hcanon : ∀ c ∈ df.cols, c ≠ "Município" →
      ∃ (a : Int) (t : String), parseAnoTipo c = some (a, t) ∧
        c = toString a ++ "_" ++ t)
    (hkeys : (keysOf df).Nodup)
    (hmun : (munColOf df).Nodup)
    (hcells : ∀ r ∈ df.rows, ∀ j < df.cols.length,
      j ≠ df.cols.indexOf "Município" → isNumOrMissing (r.getD j Cell.missing))
    (hrows : df.rows ≠ [])
    (hvcs : vcsOf df ≠ []) :
    ∃ W, pivotValor L = some W ∧ eqUpToColOrder W df := by
  have hMi : "Município" ∈ df.cols := preparar_ok_mem df L hok
  have hL : L = (vcsOf df).flatMap
      (fun c => df.rows.map (fun r => toLongRowT df (c, r))) := by
    rw [preparar_ok_eq df L hok]
    unfold meltPairs vcsOf
    rw [List.map_flatMap]
    congr 1
    funext c
    rw [List.map_map]
    rfl
  have hvc_mem : ∀ c ∈ vcsOf df, c ∈ df.cols ∧ c ≠ "Município" := by
    intro c hc
    refine ⟨List.mem_of_mem_filter hc, ?_⟩
    have := List.of_mem_filter hc
    simpa using this
  have hcanonT : ∀ c ∈ vcsOf df,
      c = toString (parseAnoTipoT c).1 ++ "_" ++ (parseAnoTipoT c).2 := by
    intro c hc
    obtain ⟨hcm, hcne⟩ := hvc_mem c hc
    obtain ⟨a, t, hparse, hname⟩ := hcanon c hcm hcne
    have hT : parseAnoTipoT c = (a, t) := by
      unfold parseAnoTipoT
      rw [hparse]
      rfl
    rw [hT]
    exact hname
  have hkeysL : L.map (fun rw => (rw.ano, rw.tipo)) =
      (vcsOf df).flatMap (fun c => List.replicate df.rows.length (parseAnoTipoT c)) := by
    rw [hL, List.map_flatMap]
    congr 1
    funext c
    rw [List.map_map]
    exact map_const_eq_replicate df.rows (parseAnoTipoT c)
  have hfdkeys : firstDedup (L.map (fun rw => (rw.ano, rw.tipo))) = keysOf df := by
    rw [hkeysL]
    exact fd_flatMap_replicate (vcsOf df) df.rows.length parseAnoTipoT
      (Nat.one_le_iff_ne_zero.mpr (fun h0 => hrows (List.length_eq_zero.mp h0))) hkeys
  have hmunsL : L.map (fun rw => rw.municipio) =
      (vcsOf df).flatMap (fun _ => munColOf df) := by
    rw [hL, List.map_flatMap]
    congr 1
    funext c
    rw [List.map_map]
    rfl
  have hfdmuns : firstDedup (L.map (fun rw => rw.municipio)) = munColOf df := by
    rw [hmunsL, fd_flatMap_const _ _ hvcs, fd_eq_self_of_nodup _ hmun]
  have htriples : L.map (fun rw => (rw.municipio, rw.ano, rw.tipo)) =
      (vcsOf df).flatMap (fun c => (munColOf df).map (fun m => (m, parseAnoTipoT c))) := by
    rw [hL, List.map_flatMap]
    congr 1
    funext c
    unfold munColOf
    rw [List.map_map, List.map_map]
    rfl
  have hnodupT : (L.map (fun rw => (rw.municipio, rw.ano, rw.tipo))).Nodup := by
    rw [htriples]
    exact nodup_flatMap_prod (vcsOf df) (munColOf df) parseAnoTipoT hkeys hmun
  have hfind : ∀ c ∈ vcsOf df, ∀ r ∈ df.rows,
      L.find? (fun rw => decide
        (rw.municipio = r.getD (df.cols.indexOf "Município") Cell.missing ∧
         rw.ano = (parseAnoTipoT c).1 ∧ rw.tipo = (parseAnoTipoT c).2)) =
      some (toLongRowT df (c, r)) := by
    intro c hc r hr
    apply find?_eq_some_unique
    · rw [hL]
      exact List.mem_flatMap.mpr ⟨c, hc, List.mem_map_of_mem _ hr⟩
    · exact decide_eq_true ⟨rfl, rfl, rfl⟩
    · intro b hb hpb
      rw [hL] at hb
      obtain ⟨c', hc', hb'⟩ := List.mem_flatMap.mp hb
      obtain ⟨r', hr', hbr⟩ := List.mem_map.mp hb'
      obtain ⟨h1, h2, h3⟩ := of_decide_eq_true hpb
      rw [← hbr] at h1 h2 h3
      have hmun' : (df.rows.map (fun r =>
          r.getD (df.cols.indexOf "Município") Cell.missing)).Nodup := hmun
      have hr'r : r' = r := by
        apply List.inj_on_of_nodup_map hmun' hr' hr
        exact h1
      have hcc : c' = c := by
        apply List.inj_on_of_nodup_map hkeys hc' hc
        exact Prod.ext h2 h3
      rw [← hbr, hr'r, hcc]
  have hcellW : ∀ c ∈ vcsOf df, ∀ r ∈ df.rows,
      pivotCellW L (r.getD (df.cols.indexOf "Município") Cell.missing)
        (parseAnoTipoT c) = r.getD (df.cols.indexOf c) Cell.missing := by
    intro c hc r hr
    unfold pivotCellW
    rw [hfind c hc r hr]
    show cellOfOpt (toNumeric (r.getD (df.cols.indexOf c) Cell.missing)) = _
    have hj : df.cols.indexOf c < df.cols.length :=
      List.indexOf_lt_length.mpr (hvc_mem c hc).1
    have hji : df.cols.indexOf c ≠ df.cols.indexOf "Município" := by
      intro he
      have hilt : df.cols.indexOf "Município" < df.cols.length :=
        List.indexOf_lt_length.mpr hMi
      have h1 : df.cols[df.cols.indexOf c]? = some c := by
        rw [List.getElem?_eq_getElem hj]
        have hg := List.indexOf_get hj
        rw [List.get_eq_getElem] at hg
        rw [hg]
      have h2 : df.cols[df.cols.indexOf "Município"]? = some "Município" := by
        rw [List.getElem?_eq_getElem hilt]
        have hg := List.indexOf_get hilt
        rw [List.get_eq_getElem] at hg
        rw [hg]
      rw [he, h2] at h1
      exact (hvc_mem c hc).2 (Option.some.inj h1).symm
    exact hcells r hr _ hj hji
  have hcols : (keysOf df).map (fun k => toString k.1 ++ "_" ++ k.2) = vcsOf df := by
    unfold keysOf
    rw [List.map_map]
    have hpt : ∀ c ∈ vcsOf df,
        ((fun k : Int × String => toString k.1 ++ "_" ++ k.2) ∘ parseAnoTipoT) c = id c :=
      fun c hc => (hcanonT c hc).symm
    rw [List.map_congr_left hpt, List.map_id]
  have hpiv : pivotValor L = some
      { cols := "Município" :: vcsOf df
        rows := (munColOf df).map (fun m =>
          m :: (keysOf df).map (fun k => pivotCellW L m k)) } := by
    unfold pivotValor
    rw [if_pos hnodupT, hfdkeys, hfdmuns]
    simp only [hcols]
  refine ⟨_, hpiv, ?_⟩
  apply colsOf_perm_of
  · show df.cols.Perm ("Município" :: vcsOf df)
    have h1 := List.perm_cons_erase hMi
    have h2 : df.cols.erase "Município" = vcsOf df := by
      rw [hnodupC.erase_eq_filter]
      apply List.filter_congr
      intro x hx
      by_cases h : x = "Município" <;> simp [h]
    rw [h2] at h1
    exact h1
  · intro c hc
    have hc' : c ∈ "Município" :: vcsOf df := hc
    rcases List.mem_cons.mp hc' with hcm | hcv
    · subst hcm
      rw [colOfDF_mk, List.indexOf_cons_self]
      rw [List.map_map]
      have hid : ∀ m ∈ munColOf df,
          ((fun r => r.getD 0 Cell.missing) ∘
            (fun m => m :: (keysOf df).map (fun k => pivotCellW L m k))) m = id m :=
        fun m hm => rfl
      rw [List.map_congr_left hid, List.map_id]
      rfl
    · rw [colOfDF_mk]
      have hcne : "Município" ≠ c := fun he => (hvc_mem c hcv).2 he.symm
      rw [List.indexOf_cons_ne _ hcne]
      have hjlt : (vcsOf df).indexOf c < (vcsOf df).length :=
        List.indexOf_lt_length.mpr hcv
      have hjK : (vcsOf df).indexOf c < (keysOf df).length := by
        unfold keysOf
        rw [List.length_map]
        exact hjlt
      have hvget : (vcsOf df)[(vcsOf df).indexOf c] = c := by
        have hg := List.indexOf_get hjlt
        rw [List.get_eq_getElem] at hg
        exact hg
      have hKget : (keysOf df)[(vcsOf df).indexOf c] = parseAnoTipoT c := by
        unfold keysOf
        rw [List.getElem_map, hvget]
      rw [List.map_map]
      have hpoint : ∀ m ∈ munColOf df,
          ((fun r => r.getD ((vcsOf df).indexOf c).succ Cell.missing) ∘
            (fun m => m :: (keysOf df).map (fun k => pivotCellW L m k))) m =
          pivotCellW L m (parseAnoTipoT c) := by
        intro m hm
        show ((keysOf df).map (fun k => pivotCellW L m k)).getD
          ((vcsOf df).indexOf c) Cell.missing = _
        rw [getD_map_lt _ _ _ hjK _, hKget]
      rw [List.map_congr_left hpoint]
      unfold munColOf colOfDF
      rw [List.map_map]
      apply List.map_congr_left
      intro r hr
      exact hcellW c hcv r hr

/-- Counterexample to C2 as stated: the accepted wide table `dfStrCell`
holds a non-coercible cell ("abc"), which the reshaper coerces to missing;
pivoting the long value column back yields a missing cell instead, so the
round trip does NOT reproduce the original table (up to column order or
otherwise). -/
theorem claim_C2_counterexample :
    preparar_df_long dfStrCell = Except.ok longStrCell ∧
    pivotValor longStrCell = some wStrCell ∧
    ¬ eqUpToColOrder wStrCell dfStrCell := by
  refine ⟨rfl, rfl, ?_⟩
  unfold eqUpToColOrder colsOf colOfDF wStrCell dfStrCell
  decide

/-- Canonical-name hypothesis of the amended C2 at `dfXY`. -/
theorem dfXY_canon : ∀ c ∈ dfXY.cols, c ≠ "Município" →
    ∃ (a : Int) (t : String), parseAnoTipo c = some (a, t) ∧
      c = toString a ++ "_" ++ t := by
  intro c hc hne
  simp only [dfXY, List.mem_cons, List.not_mem_nil, or_false] at hc
  rcases hc with hc | hc | hc
  · exact absurd hc hne
  · exact ⟨2017, "geral", by rw [hc]; decide, by rw [hc]; decide⟩
  · exact ⟨2018, "geral", by rw [hc]; decide, by rw [hc]; decide⟩

/-- Witness for the amended C2 at `dfXY`: the round trip reconstructs the
original table (in fact exactly). -/
theorem claim_C2_witness :
    preparar_df_long dfXY = Except.ok longXY ∧
    (∃ W, pivotValor longXY = some W ∧ eqUpToColOrder W dfXY) ∧
    pivotValor longXY = some dfXY :=
  ⟨rfl,
   claim_C2_amended dfXY longXY rfl (by decide) dfXY_canon (by decide)
     (by decide) (by decide) (by decide) (by decide),
   rfl⟩
